import Mathlib

/-!
# snap-plugin-collector-nginx: the metric flattening engine of `nginx/nginx.go`

A shallow embedding of `src/nginx/nginx.go`.

* Go `string`s are Lean `String`s.  Every string the code sees comes out of `json.Unmarshal`
  or is a literal, so it is valid UTF-8, and all separators the code searches for are ASCII:
  byte-wise and character-wise search agree.
* `interface{}` values are the inductive type `Value`.
* A Go `map[string]interface{}` is the list of its entries *in the order in which `range`
  visits them in the run under consideration*; its keys are pairwise distinct (`Value.wf`).
* A runtime panic is the result `none`.
* `net.LookupAddr` is a parameter `lookupAddr : String → Option (List String)`
  (`none` is a non-nil `err`).
* `Timestamp_` (the wall clock, `time.Now()`) is not part of the model of a metric.
-/

namespace Nginx

/-! ## The Go standard library functions the plugin calls -/

/-- The pieces of `cs` between the occurrences of the one-character separator `sep`. -/
def splitChars (sep : Char) : List Char → List (List Char)
  | [] => [[]]
  | c :: cs =>
    if c = sep then [] :: splitChars sep cs
    else
      match splitChars sep cs with
      | [] => [[c]]
      | seg :: segs => (c :: seg) :: segs

/-- Go `strings.Split(s, sep)` for a separator `sep` of one character. -/
def stringsSplit (s : String) (sep : Char) : List String :=
  (splitChars sep s.data).map String.mk

/-- Go `strings.Replace(s, old, new, -1)` for `old` and `new` of one character each. -/
def stringsReplace (s : String) (old new : Char) : String :=
  ⟨s.data.map fun c => if c = old then new else c⟩

/-- Go `strings.Count(s, sep)` for a separator `sep` of one character. -/
def stringsCount (s : String) (sep : Char) : Nat :=
  s.data.count sep

/-- Whether the characters `sub` occur contiguously in `cs`. -/
def containsChars (sub : List Char) : List Char → Bool
  | [] => sub.isEmpty
  | c :: cs => decide (sub <+: c :: cs) || containsChars sub cs

/-- Go `strings.Contains(s, substr)`. -/
def stringsContains (s substr : String) : Bool :=
  containsChars substr.data s.data

/-- Lower-casing of an ASCII letter. -/
def asciiLower (c : Char) : Char :=
  if 65 ≤ c.toNat ∧ c.toNat ≤ 90 then Char.ofNat (c.toNat + 32) else c

/-- Go `strings.EqualFold(s, t)`; the plugin calls it on ASCII literals only, where Unicode
case folding is ASCII case folding. -/
def stringsEqualFold (s t : String) : Bool :=
  decide (s.data.map asciiLower = t.data.map asciiLower)

/-- Go `strings.Join(elems, sep)`. -/
def stringsJoin (elems : List String) (sep : String) : String :=
  sep.intercalate elems

/-- Go `strings.TrimRight(s, cutset)` for a cutset of one character. -/
def stringsTrimRight (s : String) (cut : Char) : String :=
  ⟨s.data.rdropWhile fun c => c = cut⟩

/-- Go `strings.TrimLeft(s, cutset)` for a cutset of one character. -/
def stringsTrimLeft (s : String) (cut : Char) : String :=
  ⟨s.data.dropWhile fun c => c = cut⟩

/-- The decimal digits of `n`, most significant first, in front of `acc`. -/
def itoaDigits : Nat → Nat → List Char → List Char
  | 0, _, acc => acc
  | fuel + 1, n, acc =>
    let acc1 := Char.ofNat (48 + n % 10) :: acc
    if n / 10 = 0 then acc1 else itoaDigits fuel (n / 10) acc1

/-- Go `strconv.Itoa(i)` for the index `i ≥ 0` of a `range` loop. -/
def strconvItoa (i : Nat) : String :=
  ⟨itoaDigits (i + 1) i []⟩

/-- The UTF-8 encoding of a character: the bytes of a Go string holding it. -/
def utf8Bytes (c : Char) : List Nat :=
  let n := c.toNat
  if n < 0x80 then [n]
  else if n < 0x800 then [0xC0 + n / 64, 0x80 + n % 64]
  else if n < 0x10000 then [0xE0 + n / 4096, 0x80 + n / 64 % 64, 0x80 + n % 64]
  else [0xF0 + n / 262144, 0x80 + n / 4096 % 64, 0x80 + n / 64 % 64, 0x80 + n % 64]

/-- Go `[]byte(text)`. -/
def stringBytes (text : String) : List Nat :=
  text.data.flatMap utf8Bytes

/-! ### `crypto/md5` (RFC 1321) and `encoding/hex` -/

/-- The per-round left rotation amounts of MD5. -/
def md5Shift : List Nat :=
  [7, 12, 17, 22, 7, 12, 17, 22, 7, 12, 17, 22, 7, 12, 17, 22,
   5, 9, 14, 20, 5, 9, 14, 20, 5, 9, 14, 20, 5, 9, 14, 20,
   4, 11, 16, 23, 4, 11, 16, 23, 4, 11, 16, 23, 4, 11, 16, 23,
   6, 10, 15, 21, 6, 10, 15, 21, 6, 10, 15, 21, 6, 10, 15, 21]

/-- The sine table of MD5: entry `i` is `floor(2^32 * |sin(i + 1)|)`. -/
def md5Table : List Nat :=
  [0xd76aa478, 0xe8c7b756, 0x242070db, 0xc1bdceee, 0xf57c0faf, 0x4787c62a, 0xa8304613, 0xfd469501,
   0x698098d8, 0x8b44f7af, 0xffff5bb1, 0x895cd7be, 0x6b901122, 0xfd987193, 0xa679438e, 0x49b40821,
   0xf61e2562, 0xc040b340, 0x265e5a51, 0xe9b6c7aa, 0xd62f105d, 0x02441453, 0xd8a1e681, 0xe7d3fbc8,
   0x21e1cde6, 0xc33707d6, 0xf4d50d87, 0x455a14ed, 0xa9e3e905, 0xfcefa3f8, 0x676f02d9, 0x8d2a4c8a,
   0xfffa3942, 0x8771f681, 0x6d9d6122, 0xfde5380c, 0xa4beea44, 0x4bdecfa9, 0xf6bb4b60, 0xbebfbc70,
   0x289b7ec6, 0xeaa127fa, 0xd4ef3085, 0x04881d05, 0xd9d4d039, 0xe6db99e5, 0x1fa27cf8, 0xc4ac5665,
   0xf4292244, 0x432aff97, 0xab9423a7, 0xfc93a039, 0x655b59c3, 0x8f0ccc92, 0xffeff47d, 0x85845dd1,
   0x6fa87e4f, 0xfe2ce6e0, 0xa3014314, 0x4e0811a1, 0xf7537e82, 0xbd3af235, 0x2ad7d2bb, 0xeb86d391]

/-- Rotation of the 32-bit word `x` to the left by `c` bits. -/
def rotl32 (x c : Nat) : Nat :=
  ((x <<< c) ||| (x >>> (32 - c))) % 2 ^ 32

/-- The little-endian 32-bit word of four bytes. -/
def leWord (bs : List Nat) : Nat :=
  bs.getD 0 0 + 256 * bs.getD 1 0 + 65536 * bs.getD 2 0 + 16777216 * bs.getD 3 0

/-- The four little-endian bytes of a 32-bit word. -/
def leBytes (w : Nat) : List Nat :=
  [w % 256, w / 256 % 256, w / 65536 % 256, w / 16777216 % 256]

/-- The MD5 state: the four 32-bit words A, B, C, D. -/
abbrev Md5State := Nat × Nat × Nat × Nat

/-- Operation number `i` (0 to 63) of the MD5 compression function on the sixteen message
words `M`. -/
def md5Step (M : List Nat) (st : Md5State) (i : Nat) : Md5State :=
  let a := st.1
  let b := st.2.1
  let c := st.2.2.1
  let d := st.2.2.2
  let nb := b ^^^ 0xffffffff
  let nd := d ^^^ 0xffffffff
  let f :=
    if i < 16 then (b &&& c) ||| (nb &&& d)
    else if i < 32 then (d &&& b) ||| (nd &&& c)
    else if i < 48 then b ^^^ c ^^^ d
    else c ^^^ (b ||| nd)
  let g :=
    if i < 16 then i
    else if i < 32 then (5 * i + 1) % 16
    else if i < 48 then (3 * i + 5) % 16
    else (7 * i) % 16
  let t := (f + a + md5Table.getD i 0 + M.getD g 0) % 2 ^ 32
  (d, (b + rotl32 t (md5Shift.getD i 0)) % 2 ^ 32, b, c)

/-- The MD5 compression function on one block of 64 bytes. -/
def md5Block (st : Md5State) (block : List Nat) : Md5State :=
  let M := (List.range 16).map fun j => leWord (block.drop (4 * j))
  let r := (List.range 64).foldl (md5Step M) st
  ((st.1 + r.1) % 2 ^ 32, (st.2.1 + r.2.1) % 2 ^ 32,
   (st.2.2.1 + r.2.2.1) % 2 ^ 32, (st.2.2.2 + r.2.2.2) % 2 ^ 32)

/-- The message followed by the MD5 padding: the byte 0x80, zero bytes up to 56 modulo 64, and
the bit length as eight little-endian bytes. -/
def md5Pad (msg : List Nat) : List Nat :=
  let bits := 8 * msg.length % 2 ^ 64
  msg ++ [0x80] ++ List.replicate ((119 - msg.length % 64) % 64) 0
    ++ leBytes (bits % 2 ^ 32) ++ leBytes (bits / 2 ^ 32)

/-- The MD5 state after the first `n` blocks of 64 bytes of `bytes`. -/
def md5Blocks : Nat → Md5State → List Nat → Md5State
  | 0, st, _ => st
  | n + 1, st, bytes => md5Blocks n (md5Block st (bytes.take 64)) (bytes.drop 64)

/-- Go `md5.New()`, `Write(msg)`, `Sum(nil)`: the 16-byte MD5 digest of `msg`. -/
def md5Sum (msg : List Nat) : List Nat :=
  let padded := md5Pad msg
  let st := md5Blocks (padded.length / 64) (0x67452301, 0xefcdab89, 0x98badcfe, 0x10325476) padded
  leBytes st.1 ++ leBytes st.2.1 ++ leBytes st.2.2.1 ++ leBytes st.2.2.2

/-- The lower-case hexadecimal digit of `n % 16`. -/
def hexDigit (n : Nat) : Char :=
  if n % 16 < 10 then Char.ofNat (48 + n % 16) else Char.ofNat (87 + n % 16)

/-- Go `hex.EncodeToString(src)`. -/
def hexEncodeToString (src : List Nat) : String :=
  ⟨src.flatMap fun b => [hexDigit (b / 16), hexDigit b]⟩

/-! ## `nginx.go` -/

/-- Source `getMD5Hash`: the hex MD5 digest of the bytes of `text`. -/
def getMD5Hash (text : String) : String :=
  hexEncodeToString (md5Sum (stringBytes text))

/-- A dynamic value of `case int, int64, float64, string` of the type switch; a `float64` is
its 64-bit pattern (every number out of `json.Unmarshal` is a `float64`). -/
inductive Data where
  | int (i : Int)
  | int64 (i : Int)
  | float64 (bits : Nat)
  | string (s : String)
  deriving DecidableEq, Repr

/-- A Go `interface{}` value as the type switches of the plugin tell them apart: `bool`, the
scalar types of `Data`, `map[string]interface{}` (entries in `range` order),
`[]interface{}`, and `null` for `nil` and every other dynamic type (the `default` case). -/
inductive Value where
  | null
  | bool (b : Bool)
  | data (d : Data)
  | arr (xs : List Value)
  | obj (m : List (String × Value))

/-- The fields `Namespace_` and `Data_` of `plugin.MetricType`; `core.NewNamespace(ss...)` is
the list of its element values `ss`. -/
structure MetricType where
  Namespace_ : List String
  Data_ : Data
  deriving DecidableEq, Repr

/-- The constant `NUM_DOT_IN_IP`. -/
def NUM_DOT_IN_IP : Nat := 3

/-- The constant `HTTP_200_OK`. -/
def HTTP_200_OK : Int := 200

/-- Go `strings.NewReplacer(".", "_", "/", "_", "\\", "_", ":", "_", "%", "_").Replace(s)`. -/
def replacerReplace (s : String) : String :=
  ⟨s.data.map fun c => if c ∈ ['.', '/', Char.ofNat 92, ':', '%'] then '_' else c⟩

/-- Source `getHostName`.  The result is `none` when the type assertion
`mtype["server"].(string)` panics. -/
def getHostName (lookupAddr : String → Option (List String)) (inData : Value)
    (hostName : String) : Option String :=
  let switched : Option (Bool × String) :=
    match inData with
    | .obj mtype =>
      match mtype.lookup "server" with
      | some (.data (.string server)) =>
        if stringsCount server '.' = NUM_DOT_IN_IP then
          let subStr := stringsSplit server ':'
          match lookupAddr (subStr.headD "") with
          | some hName => some (true, stringsJoin hName ".")
          | none => some (false, server)
        else if stringsContains server "::" = true then
          let subStr := stringsSplit server ']'
          let tStr := stringsTrimLeft (subStr.headD "") '['
          match lookupAddr tStr with
          | some hName => some (true, stringsJoin hName ".")
          | none => some (false, server)
        else some (false, server)
      | _ => none
    | _ => some (false, hostName)
  switched.map fun fh =>
    let hostName :=
      if fh.1 = false then "host_id_" ++ getMD5Hash fh.2 else "host_id_" ++ fh.2
    let hostName := stringsTrimRight hostName '.'
    replacerReplace hostName

/-- Source `checkIgnoreMetric`. -/
def checkIgnoreMetric (mkey : String) : Bool :=
  let IgnoreChildMetric := "server"
  let IgnoreMetric := ""
  let ret := false
  let ret :=
    if stringsEqualFold IgnoreChildMetric "nil" = false then
      let subMetric := stringsSplit mkey '/'
      if stringsContains IgnoreChildMetric (subMetric.getLastD "") = true then true else ret
    else ret
  let ret :=
    if stringsEqualFold IgnoreMetric "nil" = false then
      if stringsContains IgnoreMetric mkey = true then true else ret
    else ret
  ret

/-- Source `getNamespace`. -/
def getNamespace (mkey : String) : List String :=
  let rc := stringsReplace mkey '.' '-'
  let ss := stringsSplit rc '/'
  ss

mutual
/-- Source `switchType`; the accumulator `*outMetric` is passed in and returned. -/
def switchType (lookupAddr : String → Option (List String)) (outMetric : List MetricType) :
    Value → String → Option (List MetricType)
  | .bool b, ak =>
    if checkIgnoreMetric ak = true then some outMetric
    else some (outMetric ++ [⟨getNamespace ak, if b = false then .int 0 else .int 1⟩])
  | .data d, ak =>
    if checkIgnoreMetric ak = true then some outMetric
    else some (outMetric ++ [⟨getNamespace ak, d⟩])
  | .obj mtype, ak => parseMetrics lookupAddr outMetric mtype ak
  | .arr mtype, ak => parseArrMetrics lookupAddr outMetric mtype 0 ak
  | .null, _ => some outMetric
/-- Source `parseArrMetrics`, from index `mkey` on: `inData` is what is left of the slice. -/
def parseArrMetrics (lookupAddr : String → Option (List String)) (outMetric : List MetricType) :
    List Value → Nat → String → Option (List MetricType)
  | [], _, _ => some outMetric
  | mval :: rest, mkey, parentKey =>
    let subMetric := stringsSplit parentKey '/'
    let step :=
      if subMetric.getLastD "" = "peers" then
        match getHostName lookupAddr mval (strconvItoa mkey) with
        | some hostName => switchType lookupAddr outMetric mval (parentKey ++ "/" ++ hostName)
        | none => none
      else switchType lookupAddr outMetric mval (parentKey ++ "/" ++ strconvItoa mkey)
    match step with
    | some out1 => parseArrMetrics lookupAddr out1 rest (mkey + 1) parentKey
    | none => none
/-- Source `parseMetrics`. -/
def parseMetrics (lookupAddr : String → Option (List String)) (outMetric : List MetricType) :
    List (String × Value) → String → Option (List MetricType)
  | [], _ => some outMetric
  | (mkey, mval) :: rest, parentKey =>
    match switchType lookupAddr outMetric mval (parentKey ++ "/" ++ mkey) with
    | some out1 => parseMetrics lookupAddr out1 rest parentKey
    | none => none
end

/-- A Go `error` value: the four error variables of the plugin, and the errors of the
libraries. -/
inductive GoError where
  | ErrorCfgParam
  | ErrorBadServer
  | ErrorRequestFail
  | ErrorConfigRead
  | library (msg : String)
  deriving DecidableEq, Repr

/-- What reading and decoding the body of a response gives: a failing `ioutil.ReadAll`, a
failing `json.Unmarshal` into a `map[string]interface{}`, or the decoded object. -/
inductive Body where
  | readError (err2 : GoError)
  | decodeError (err : GoError)
  | object (jFmt : List (String × Value))

/-- The HTTP fetch as a result value: `client.Get` fails with `err1` (transport, timeout),
or answers with a status code and a body. -/
inductive HttpResult where
  | error (err1 : GoError)
  | response (StatusCode : Int) (body : Body)

/-- Source `getMetrics`, with the HTTP exchange `httpGet` as a parameter.  The result is the
pair `(mList, err)`, or `none` for a panic. -/
def getMetrics (lookupAddr : String → Option (List String)) (httpGet : String → HttpResult)
    (nginxServer : String) (_metrics : List String) :
    Option (List MetricType × Option GoError) :=
  match httpGet nginxServer with
  | .error err1 => some ([], some err1)
  | .response StatusCode body =>
    if StatusCode ≠ HTTP_200_OK then some ([], some .ErrorRequestFail)
    else
      match body with
      | .readError err2 => some ([], some err2)
      | .decodeError err => some ([], some err)
      | .object jFmt =>
        let pk := "staples" ++ "/" ++ "nginx"
        match parseMetrics lookupAddr [] jFmt pk with
        | some mList => some (mList, none)
        | none => none

/-- A value of a configuration table (`ctypes.ConfigValue`). -/
inductive ConfigValue where
  | ConfigValueStr (Value : String)
  | ConfigValueInt (Value : Int)
  | ConfigValueBool (Value : Bool)
  deriving DecidableEq, Repr

/-- Source `NginxCollector.CollectMetrics`.  An input metric is given by what the function
reads of it: its namespace string and its configuration table. -/
def CollectMetrics (lookupAddr : String → Option (List String)) (httpGet : String → HttpResult)
    (inmts : List (String × List (String × ConfigValue))) :
    Option (List MetricType × Option GoError) :=
  match inmts with
  | [] => none
  | mt0 :: _ =>
    match mt0.2.lookup "nginx_server_url" with
    | none => some ([], some .ErrorConfigRead)
    | some (.ConfigValueStr nginxServerUrl) =>
      let metricsList := inmts.map fun mts => mts.1
      match getMetrics lookupAddr httpGet nginxServerUrl metricsList with
      | some (mList, _err) => some (mList, none)
      | none => none
    | some _ => some ([], some .ErrorBadServer)

/-- Source `NginxCollector.GetMetricTypes`, on the configuration table of `cfg`. -/
def GetMetricTypes (lookupAddr : String → Option (List String)) (httpGet : String → HttpResult)
    (cfg : List (String × ConfigValue)) : Option (List MetricType × Option GoError) :=
  match cfg.lookup "nginx_server_url" with
  | none => some ([], some .ErrorConfigRead)
  | some (.ConfigValueStr nginxServerUrl) =>
    match getMetrics lookupAddr httpGet nginxServerUrl [] with
    | some (mList, _err) => some (mList, none)
    | none => none
  | some _ => some ([], some .ErrorBadServer)

/-! ## Definitions that follow the wording of the specification, and test data -/

/-- A reverse-DNS service in which every lookup fails. -/
def lookupNone : String → Option (List String) := fun _ => none

/-- A reverse-DNS service that knows the one address 10.0.0.1. -/
def lookupWeb1 : String → Option (List String) := fun addr =>
  if addr = "10.0.0.1" then some ["web1.example.com."] else none

/-- A reverse-DNS service that resolves every address but "[". -/
def lookupButBracket : String → Option (List String) := fun addr =>
  if addr = "[" then none else some ["peer.example.com."]

/-- A peer record with the "server" field `server`. -/
def peerOf (server : String) : Value :=
  .obj [("server", .data (.string server))]

/-- The address of specification 4.2, step 2: the candidate with the fragment after its last
':' removed, together with that ':' (the whole candidate when it has no ':'). -/
def specLookupAddress (server : String) : String :=
  if ':' ∈ server.data then ⟨(server.data.rdropWhile fun c => c ≠ ':').dropLast⟩ else server

/-- The identifier of specification 4.2, steps 2, 4 and 5, for an IPv4-shaped candidate
`server` whose reverse-DNS lookup is made on the address `addr`. -/
def resolvedIPv4 (lookupAddr : String → Option (List String)) (addr server : String) : String :=
  let tagged :=
    match lookupAddr addr with
    | some hName => "host_id_" ++ stringsJoin hName "."
    | none => "host_id_" ++ getMD5Hash server
  replacerReplace (stringsTrimRight tagged '.')

/-- The status document `{"active": true, "server": "1.2.3.4:80", "peers": [{"server":
"10.0.0.1:9000", "id": 5, "backup": false}, {"server": "badhost", "name": "b"}]}`, the number
5 standing for its `float64`. -/
def statusDoc : List (String × Value) :=
  [("active", .bool true), ("server", .data (.string "1.2.3.4:80")),
   ("peers", .arr [
      .obj [("server", .data (.string "10.0.0.1:9000")), ("id", .data (.float64 5)),
            ("backup", .bool false)],
      .obj [("server", .data (.string "badhost")), ("name", .data (.string "b"))]])]

/-- The two peer records of `statusDoc`. -/
def statusPeers : List Value :=
  [.obj [("server", .data (.string "10.0.0.1:9000")), ("id", .data (.float64 5)),
         ("backup", .bool false)],
   .obj [("server", .data (.string "badhost")), ("name", .data (.string "b"))]]

/-- An HTTP exchange that answers every request with status 503. -/
def http503 : String → HttpResult := fun _ => .response 503 (.object [])

/-- A configuration table with the URL of the status endpoint. -/
def cfgUrl : List (String × ConfigValue) :=
  [("nginx_server_url", .ConfigValueStr "http://localhost/status")]

/-- The error of a failed fetch (specification 4.5): the transport error of `client.Get`,
`ErrorRequestFail` for a status other than 200, the error of reading the body or of decoding
it as a JSON object; `none` when the fetch succeeds. -/
def fetchError : HttpResult → Option GoError
  | .error err1 => some err1
  | .response StatusCode body =>
    if StatusCode ≠ 200 then some .ErrorRequestFail
    else
      match body with
      | .readError err2 => some err2
      | .decodeError err => some err
      | .object _ => none

/-- The document `statusDoc` as another run may visit it: "peers" before "server" before
"active", and in the first peer record "backup" before "id" before "server". -/
def statusDocShuffled : List (String × Value) :=
  [("peers", .arr [
      .obj [("backup", .bool false), ("id", .data (.float64 5)),
            ("server", .data (.string "10.0.0.1:9000"))],
      .obj [("server", .data (.string "badhost")), ("name", .data (.string "b"))]]),
   ("server", .data (.string "1.2.3.4:80")), ("active", .bool true)]

/-- The segment `parseArrMetrics` appends to `parentKey` for element `mkey`: the host
identifier under a key path ending in "peers" (the index when `getHostName` panics, a case
the proviso `peersOK` excludes), the decimal index elsewhere. -/
def arraySegment (lookupAddr : String → Option (List String)) (parentKey : String) (mkey : Nat)
    (mval : Value) : String :=
  if (stringsSplit parentKey '/').getLastD "" = "peers" then
    (getHostName lookupAddr mval (strconvItoa mkey)).getD (strconvItoa mkey)
  else strconvItoa mkey

/-- The body of the loop of `parseArrMetrics` for element `mval` of index `mkey`: under a key
path ending in "peers" the element is flattened at `parentKey + "/" + getHostName(...)`,
elsewhere at `parentKey + "/" + strconv.Itoa(mkey)`. -/
def flattenElement (lookupAddr : String → Option (List String)) (outMetric : List MetricType)
    (parentKey : String) (mkey : Nat) (mval : Value) : Option (List MetricType) :=
  if (stringsSplit parentKey '/').getLastD "" = "peers" then
    match getHostName lookupAddr mval (strconvItoa mkey) with
    | some hostName => switchType lookupAddr outMetric mval (parentKey ++ "/" ++ hostName)
    | none => none
  else switchType lookupAddr outMetric mval (parentKey ++ "/" ++ strconvItoa mkey)

/-- A scalar leaf of a document: a boolean, or a number or string. -/
inductive Scalar where
  | bool (b : Bool)
  | data (d : Data)
  deriving DecidableEq, Repr

/-- The value a scalar leaf is emitted with: itself, a boolean as the integer 1 or 0. -/
def Scalar.emitted : Scalar → Data
  | .bool true => .int 1
  | .bool false => .int 0
  | .data d => d

mutual
/-- The scalar leaves of the document `v` placed at key path `ak`, each with its full key path:
`ak` followed by "/"-joined object keys and array segments. -/
def leaves (lookupAddr : String → Option (List String)) : Value → String → List (String × Scalar)
  | .bool b, ak => [(ak, .bool b)]
  | .data d, ak => [(ak, .data d)]
  | .obj m, ak => leavesMap lookupAddr m ak
  | .arr xs, ak => leavesArr lookupAddr xs 0 ak
  | .null, _ => []
/-- The scalar leaves of the elements of an array, from index `i` on. -/
def leavesArr (lookupAddr : String → Option (List String)) :
    List Value → Nat → String → List (String × Scalar)
  | [], _, _ => []
  | x :: rest, i, parent =>
    leaves lookupAddr x (parent ++ "/" ++ arraySegment lookupAddr parent i x)
      ++ leavesArr lookupAddr rest (i + 1) parent
/-- The scalar leaves of the entries of a mapping. -/
def leavesMap (lookupAddr : String → Option (List String)) :
    List (String × Value) → String → List (String × Scalar)
  | [], _ => []
  | (k, x) :: rest, parent =>
    leaves lookupAddr x (parent ++ "/" ++ k) ++ leavesMap lookupAddr rest parent
end

/-- Whether a peer record that is a mapping carries a string "server" field. -/
def hasServer : Value → Bool
  | .obj m =>
    match m.lookup "server" with
    | some (.data (.string _)) => true
    | _ => false
  | _ => true

mutual
/-- The proviso of the flattening contract: in the document `v` placed at key path `ak`, each
mapping element of an array under a key path ending in "peers" carries a string "server"
field. -/
def peersOK (lookupAddr : String → Option (List String)) : Value → String → Bool
  | .obj m, ak => peersOKMap lookupAddr m ak
  | .arr xs, ak => peersOKArr lookupAddr xs 0 ak
  | _, _ => true
/-- The proviso `peersOK` on the elements of an array, from index `i` on. -/
def peersOKArr (lookupAddr : String → Option (List String)) :
    List Value → Nat → String → Bool
  | [], _, _ => true
  | x :: rest, i, parent =>
    (if (stringsSplit parent '/').getLastD "" = "peers" then hasServer x else true)
      && peersOK lookupAddr x (parent ++ "/" ++ arraySegment lookupAddr parent i x)
      && peersOKArr lookupAddr rest (i + 1) parent
/-- The proviso `peersOK` on the entries of a mapping. -/
def peersOKMap (lookupAddr : String → Option (List String)) :
    List (String × Value) → String → Bool
  | [], _ => true
  | (k, x) :: rest, parent =>
    peersOK lookupAddr x (parent ++ "/" ++ k) && peersOKMap lookupAddr rest parent
end

/-- The tuple emitted for a scalar leaf at a full key path. -/
def tupleOf (leaf : String × Scalar) : MetricType :=
  ⟨getNamespace leaf.1, leaf.2.emitted⟩

mutual
/-- Whether the keys of every mapping of a document are pairwise distinct, as they are in a Go
map. -/
def Value.wf : Value → Bool
  | .obj m => decide (m.map Prod.fst).Nodup && wfMap m
  | .arr xs => wfArr xs
  | _ => true
/-- `Value.wf` on the elements of an array. -/
def wfArr : List Value → Bool
  | [] => true
  | x :: rest => x.wf && wfArr rest
/-- `Value.wf` on the values of a mapping. -/
def wfMap : List (String × Value) → Bool
  | [] => true
  | (_, x) :: rest => x.wf && wfMap rest
end

/-- The same document up to the order in which the entries of its mappings are visited: the
entries of a mapping are permuted, or a value inside a mapping or inside an array is replaced
by a reordered one, any number of times. -/
inductive Shuffle : Value → Value → Prop where
  | refl (v : Value) : Shuffle v v
  | trans {a b c : Value} : Shuffle a b → Shuffle b c → Shuffle a c
  | objPerm {m m1 : List (String × Value)} : m.Perm m1 → Shuffle (.obj m) (.obj m1)
  | objCongr (pre post : List (String × Value)) (k : String) {v v1 : Value} :
      Shuffle v v1 → Shuffle (.obj (pre ++ (k, v) :: post)) (.obj (pre ++ (k, v1) :: post))
  | arrCongr (pre post : List Value) {v v1 : Value} :
      Shuffle v v1 → Shuffle (.arr (pre ++ v :: post)) (.arr (pre ++ v1 :: post))

/-- Two results of a flattening agree up to order: both are lists of tuples, permutations of
each other, or both are a panic. -/
def PermResult (r1 r2 : Option (List MetricType)) : Prop :=
  match r1, r2 with
  | some a, some b => a.Perm b
  | none, none => True
  | _, _ => False

/-! ## Facts about the library functions -/

theorem splitChars_ne_nil (sep : Char) (l : List Char) : splitChars sep l ≠ [] := by
  cases l with
  | nil => simp [splitChars]
  | cons c cs =>
    unfold splitChars
    split
    · simp
    · split <;> simp

theorem splitChars_cons_sep (sep : Char) (cs : List Char) :
    splitChars sep (sep :: cs) = [] :: splitChars sep cs := by
  simp [splitChars]

theorem splitChars_cons_ne {sep c : Char} (h : c ≠ sep) (cs : List Char) :
    ∃ seg segs, splitChars sep cs = seg :: segs ∧
      splitChars sep (c :: cs) = (c :: seg) :: segs := by
  cases hs : splitChars sep cs with
  | nil => exact absurd hs (splitChars_ne_nil sep cs)
  | cons seg segs => exact ⟨seg, segs, rfl, by simp [splitChars, h, hs]⟩

theorem splitChars_length (sep : Char) (l : List Char) :
    (splitChars sep l).length = l.count sep + 1 := by
  induction l with
  | nil => simp [splitChars]
  | cons c cs ih =>
    by_cases h : c = sep
    · subst h
      simp [splitChars_cons_sep, ih]
    · obtain ⟨seg, segs, h1, h2⟩ := splitChars_cons_ne h cs
      have hc : (c == sep) = false := by simpa using h
      simp [h2, List.count_cons, hc, ← ih, h1]

theorem splitChars_append (sep : Char) (a b : List Char) :
    splitChars sep (a ++ sep :: b) = splitChars sep a ++ splitChars sep b := by
  induction a with
  | nil => simp [splitChars]
  | cons c cs ih =>
    by_cases h : c = sep
    · subst h
      simp [splitChars_cons_sep, ih]
    · obtain ⟨seg, segs, h1, h2⟩ := splitChars_cons_ne h cs
      obtain ⟨seg1, segs1, h3, h4⟩ := splitChars_cons_ne h (cs ++ sep :: b)
      rw [List.cons_append, h4, h2]
      rw [ih, h1] at h3
      simp only [List.cons_append, List.cons.injEq] at h3
      obtain ⟨rfl, rfl⟩ := h3
      simp

theorem splitChars_sep_not_mem (sep : Char) (l : List Char) :
    ∀ seg ∈ splitChars sep l, sep ∉ seg := by
  induction l with
  | nil => simp [splitChars]
  | cons c cs ih =>
    by_cases h : c = sep
    · subst h
      simpa [splitChars_cons_sep] using ih
    · obtain ⟨seg, segs, h1, h2⟩ := splitChars_cons_ne h cs
      rw [h1] at ih
      rw [h2]
      intro s hs
      rcases List.mem_cons.1 hs with rfl | hs
      · have := ih seg (List.mem_cons_self _ _)
        simp only [List.mem_cons, not_or]
        exact ⟨fun e => h e.symm, this⟩
      · exact ih s (List.mem_cons_of_mem _ hs)

theorem splitChars_subset (sep : Char) (l : List Char) :
    ∀ seg ∈ splitChars sep l, ∀ c ∈ seg, c ∈ l := by
  induction l with
  | nil => simp [splitChars]
  | cons c cs ih =>
    by_cases h : c = sep
    · subst h
      intro seg hseg x hx
      rw [splitChars_cons_sep] at hseg
      rcases List.mem_cons.1 hseg with rfl | hseg
      · simp at hx
      · exact List.mem_cons_of_mem _ (ih seg hseg x hx)
    · obtain ⟨seg, segs, h1, h2⟩ := splitChars_cons_ne h cs
      rw [h1] at ih
      rw [h2]
      intro s hs x hx
      rcases List.mem_cons.1 hs with rfl | hs
      · rcases List.mem_cons.1 hx with rfl | hx
        · exact List.mem_cons_self _ _
        · exact List.mem_cons_of_mem _ (ih seg (List.mem_cons_self _ _) x hx)
      · exact List.mem_cons_of_mem _ (ih s (List.mem_cons_of_mem _ hs) x hx)

theorem splitChars_intercalate (sep : Char) (l : List Char) :
    List.intercalate [sep] (splitChars sep l) = l := by
  induction l with
  | nil => simp [splitChars, List.intercalate]
  | cons c cs ih =>
    by_cases h : c = sep
    · subst h
      rw [splitChars_cons_sep]
      cases hs : splitChars c cs with
      | nil => exact absurd hs (splitChars_ne_nil c cs)
      | cons seg segs =>
        rw [hs] at ih
        simp only [List.intercalate, List.intersperse, List.flatten] at ih ⊢
        simp [ih]
    · obtain ⟨seg, segs, h1, h2⟩ := splitChars_cons_ne h cs
      rw [h1] at ih
      rw [h2]
      cases segs with
      | nil =>
        simp only [List.intercalate, List.intersperse, List.flatten] at ih ⊢
        simpa using ih
      | cons s2 rest =>
        simp only [List.intercalate, List.intersperse, List.flatten] at ih ⊢
        simpa using ih

theorem splitChars_of_not_mem {sep : Char} {l : List Char} (h : sep ∉ l) :
    splitChars sep l = [l] := by
  induction l with
  | nil => simp [splitChars]
  | cons c cs ih =>
    have hc : c ≠ sep := fun e => h (by simp [e])
    have hcs : sep ∉ cs := fun e => h (List.mem_cons_of_mem _ e)
    obtain ⟨seg, segs, h1, h2⟩ := splitChars_cons_ne hc cs
    rw [ih hcs] at h1
    simp only [List.cons.injEq] at h1
    rw [h2, ← h1.1, ← h1.2]



theorem data_intercalate_go (acc sep : String) (l : List String) :
    (String.intercalate.go acc sep l).data =
      acc.data ++ (l.map fun s => sep.data ++ s.data).flatten := by
  induction l generalizing acc with
  | nil => simp [String.intercalate.go]
  | cons a as ih => simp [String.intercalate.go, ih, String.data_append]

theorem data_intercalate (sep : String) (l : List String) :
    (sep.intercalate l).data = List.intercalate sep.data (l.map String.data) := by
  cases l with
  | nil => simp [String.intercalate, List.intercalate]
  | cons a as =>
    simp only [String.intercalate, data_intercalate_go, List.intercalate, List.map_cons]
    induction as generalizing a with
    | nil => simp [List.intersperse]
    | cons b bs ih =>
      have := ih b
      simp only [List.map_cons, List.intersperse, List.flatten] at this ⊢
      simp [this]

theorem containsChars_iff (sub l : List Char) : containsChars sub l = true ↔ sub <:+: l := by
  induction l with
  | nil => simp [containsChars, List.infix_nil]
  | cons c cs ih =>
    simp only [containsChars, Bool.or_eq_true, decide_eq_true_eq, ih]
    exact List.infix_cons_iff.symm

/-! ## The namespace builder and the metric filter -/

theorem replace_dot_data (mkey : String) :
    (stringsReplace mkey '.' '-').data = mkey.data.map fun c => if c = '.' then '-' else c := rfl

theorem count_slash_replace (l : List Char) :
    (l.map fun c => if c = '.' then '-' else c).count '/' = l.count '/' := by
  induction l with
  | nil => rfl
  | cons c cs ih =>
    by_cases h : c = '.'
    · subst h
      simp [List.count_cons, ih]
    · simp [List.count_cons, h, ih]

theorem getNamespace_append (a b : String) :
    getNamespace (a ++ "/" ++ b) = getNamespace a ++ getNamespace b := by
  simp only [getNamespace, stringsSplit, replace_dot_data, String.data_append, List.map_append,
    ← List.map_append]
  simp [splitChars_append]

/-- C7: `getNamespace` replaces every "." by "-" and then splits on "/".  No segment contains
"." or "/", there is one segment more than there are "/" in the key path, joining the segments
with "/" gives back the key path with every "." replaced by "-", and the segments of
`a + "/" + b` are those of `a` followed by those of `b`, so that empty segments stay where
they are. -/
theorem getNamespace_spec (mkey : String) :
    getNamespace mkey = stringsSplit (stringsReplace mkey '.' '-') '/' ∧
    (∀ seg ∈ getNamespace mkey, '.' ∉ seg.data ∧ '/' ∉ seg.data) ∧
    (getNamespace mkey).length = stringsCount mkey '/' + 1 ∧
    stringsJoin (getNamespace mkey) "/" = stringsReplace mkey '.' '-' ∧
    getNamespace "" = [""] ∧
    ∀ b : String, getNamespace (mkey ++ "/" ++ b) = getNamespace mkey ++ getNamespace b := by
  refine ⟨rfl, ?_, ?_, ?_, by decide, getNamespace_append mkey⟩
  · intro seg hseg
    simp only [getNamespace, stringsSplit, List.mem_map] at hseg
    obtain ⟨cs, hcs, rfl⟩ := hseg
    refine ⟨fun hdot => ?_, splitChars_sep_not_mem _ _ cs hcs⟩
    have := splitChars_subset _ _ cs hcs '.' hdot
    rw [replace_dot_data, List.mem_map] at this
    obtain ⟨c, _, hc⟩ := this
    by_cases h : c = '.'
    · simp [h] at hc
    · simp [h] at hc
  · simp only [getNamespace, stringsSplit, List.length_map, splitChars_length, replace_dot_data,
      count_slash_replace, stringsCount]
  · apply String.ext
    simp only [stringsJoin, data_intercalate, getNamespace, stringsSplit, List.map_map]
    have : (String.data ∘ String.mk) = id := by
      funext x
      rfl
    rw [this, List.map_id]
    exact splitChars_intercalate '/' _

theorem checkIgnoreMetric_eq (mkey : String) :
    checkIgnoreMetric mkey =
      (stringsContains "server" ((stringsSplit mkey '/').getLastD "") ||
        stringsContains "" mkey) := by
  have h1 : stringsEqualFold "server" "nil" = false := by decide
  have h2 : stringsEqualFold "" "nil" = false := by decide
  simp only [checkIgnoreMetric, h1, h2, if_true]
  cases stringsContains "server" ((stringsSplit mkey '/').getLastD "") <;>
    cases stringsContains "" mkey <;> rfl

/-- C3, the failing inputs: the key paths "staples/nginx/ver", "staples/nginx/e",
"staples/nginx/s" and "staples/nginx/" are rejected although their final segments are not
"server", so the claimed equivalence fails there, and `parseMetrics` drops the leaves "ver",
"e" and "" of a document, whatever the reverse-DNS lookup answers; "server" is rejected and
"active" is kept, as the ignore list says. -/
theorem checkIgnoreMetric_rejects_substrings (lookupAddr : String → Option (List String)) :
    checkIgnoreMetric "staples/nginx/server" = true ∧
    checkIgnoreMetric "staples/nginx/active" = false ∧
    checkIgnoreMetric "staples/nginx/ver" = true ∧
    (stringsSplit "staples/nginx/ver" '/').getLastD "" = "ver" ∧
    checkIgnoreMetric "staples/nginx/e" = true ∧
    checkIgnoreMetric "staples/nginx/s" = true ∧
    checkIgnoreMetric "staples/nginx/" = true ∧
    ¬ (checkIgnoreMetric "staples/nginx/ver" = true ↔
        (stringsSplit "staples/nginx/ver" '/').getLastD "" = "server") ∧
    parseMetrics lookupAddr []
      [("ver", .data (.float64 1)), ("e", .bool true), ("", .data (.string "x")),
       ("active", .bool true)] "staples/nginx" =
      some [⟨["staples", "nginx", "active"], .int 1⟩] := by
  refine ⟨by decide, by decide, by decide, by decide, by decide, by decide, by decide,
    by decide, ?_⟩
  have h1 : checkIgnoreMetric ("staples/nginx" ++ "/" ++ "ver") = true := by decide
  have h2 : checkIgnoreMetric ("staples/nginx" ++ "/" ++ "e") = true := by decide
  have h3 : checkIgnoreMetric ("staples/nginx" ++ "/" ++ "") = true := by decide
  have h4 : checkIgnoreMetric ("staples/nginx" ++ "/" ++ "active") = false := by decide
  have h5 : getNamespace ("staples/nginx" ++ "/" ++ "active") = ["staples", "nginx", "active"] := by
    decide
  simp only [parseMetrics, switchType, h1, h2, h3, h4, h5, if_true]
  rfl

/-- What `strings.Contains(IgnoreChildMetric, subMetric[len(subMetric)-1])` computes: the
result is true exactly when the final "/"-separated segment of the key path occurs in "server"
as a contiguous substring, the empty segment included; the empty full-key-path list adds
nothing. -/
theorem checkIgnoreMetric_iff (mkey : String) :
    checkIgnoreMetric mkey = true ↔
      ((stringsSplit mkey '/').getLastD "").data <:+: "server".data := by
  rw [checkIgnoreMetric_eq, Bool.or_eq_true, stringsContains, stringsContains,
    containsChars_iff, containsChars_iff]
  constructor
  · rintro (h | h)
    · exact h
    · have hnil : mkey.data = [] := by
        have : ("" : String).data = [] := rfl
        rw [this] at h
        obtain ⟨s, t, hst⟩ := h
        cases hd : mkey.data with
        | nil => rfl
        | cons c cs =>
          rw [hd] at hst
          have := congrArg List.length hst
          simp at this
      have : mkey = "" := String.ext hnil
      subst this
      decide
  · exact Or.inl

/-! ## The hostname resolver -/

theorem hexDigit_mem (n : Nat) : hexDigit n ∈ "0123456789abcdef".data := by
  unfold hexDigit
  have h := Nat.mod_lt n (by decide : 16 > 0)
  generalize n % 16 = m at h
  interval_cases m <;> decide

theorem hexEncodeToString_mem (src : List Nat) :
    ∀ c ∈ (hexEncodeToString src).data, c ∈ "0123456789abcdef".data := by
  intro c hc
  simp only [hexEncodeToString, List.mem_flatMap, List.mem_cons, List.mem_singleton,
    List.not_mem_nil, or_false] at hc
  obtain ⟨b, _, rfl | rfl⟩ := hc
  · exact hexDigit_mem _
  · exact hexDigit_mem _

theorem hexEncodeToString_length (src : List Nat) :
    (hexEncodeToString src).data.length = 2 * src.length := by
  simp only [hexEncodeToString]
  induction src with
  | nil => rfl
  | cons b bs ih =>
    simp only [List.flatMap_cons, List.length_append, List.length_cons, List.length_nil, ih]
    omega

theorem md5Sum_length (msg : List Nat) : (md5Sum msg).length = 16 := by
  simp [md5Sum, leBytes]

theorem getMD5Hash_length (text : String) : (getMD5Hash text).data.length = 32 := by
  rw [getMD5Hash, hexEncodeToString_length, md5Sum_length]

theorem getMD5Hash_mem (text : String) :
    ∀ c ∈ (getMD5Hash text).data, c ∈ "0123456789abcdef".data :=
  hexEncodeToString_mem _


theorem rdropWhile_of_forall {p : Char → Bool} {l : List Char} (h : ∀ c ∈ l, p c = false) :
    l.rdropWhile p = l := by
  rw [List.rdropWhile_eq_self_iff]
  intro hl
  simp [h _ (List.getLast_mem hl)]

theorem prefix_rdropWhile_append {p : Char → Bool} {a : List Char} (ha : a.rdropWhile p = a)
    (b : List Char) : a <+: (a ++ b).rdropWhile p := by
  induction b using List.reverseRecOn with
  | nil => simp [ha]
  | append_singleton b x ih =>
    rw [← List.append_assoc, List.rdropWhile_concat]
    split
    · exact ih
    · rw [List.append_assoc]
      exact List.prefix_append _ _

theorem replacerReplace_data (s : String) :
    (replacerReplace s).data =
      s.data.map fun c => if c ∈ ['.', '/', Char.ofNat 92, ':', '%'] then '_' else c := rfl

theorem replacerReplace_not_mem (s : String) :
    ∀ c ∈ (replacerReplace s).data, c ∉ ['.', '/', Char.ofNat 92, ':', '%'] := by
  intro c hc
  rw [replacerReplace_data, List.mem_map] at hc
  obtain ⟨d, _, rfl⟩ := hc
  by_cases h : d ∈ ['.', '/', Char.ofNat 92, ':', '%']
  · rw [if_pos h]
    decide
  · rw [if_neg h]
    exact h

theorem replacerReplace_of_forall {s : String}
    (h : ∀ c ∈ s.data, c ∉ ['.', '/', Char.ofNat 92, ':', '%']) : replacerReplace s = s := by
  apply String.ext
  rw [replacerReplace_data]
  conv_rhs => rw [← List.map_id s.data]
  apply List.map_congr_left
  intro c hc
  simp only [if_neg (h c hc), id]

/-- The last two steps of `getHostName` on a tagged candidate `"host_id_" + x`. -/
theorem sanitize_tagged (x : String) :
    "host_id_".data <+: (replacerReplace (stringsTrimRight ("host_id_" ++ x) '.')).data := by
  rw [replacerReplace_data]
  have h := prefix_rdropWhile_append (p := fun c => decide (c = '.')) (a := "host_id_".data)
    (by decide) x.data
  obtain ⟨t, ht⟩ := h
  simp only [stringsTrimRight, String.data_append, ← ht, List.map_append]
  have : (List.map (fun c => if c ∈ ['.', '/', Char.ofNat 92, ':', '%'] then '_' else c)
      "host_id_".data) = "host_id_".data := by decide
  rw [this]
  exact List.prefix_append _ _

theorem hex_not_replaced {c : Char} (h : c ∈ "0123456789abcdef".data) :
    c ∉ ['.', '/', Char.ofNat 92, ':', '%'] := by
  have : ∀ d ∈ "0123456789abcdef".data, d ∉ ['.', '/', Char.ofNat 92, ':', '%'] := by decide
  exact this c h

theorem tagged_hash_not_replaced (s : String) :
    ∀ c ∈ ("host_id_" ++ getMD5Hash s).data, c ∉ ['.', '/', Char.ofNat 92, ':', '%'] := by
  intro c hc
  rw [String.data_append, List.mem_append] at hc
  rcases hc with hc | hc
  · have : ∀ d ∈ "host_id_".data, d ∉ ['.', '/', Char.ofNat 92, ':', '%'] := by decide
    exact this c hc
  · exact hex_not_replaced (getMD5Hash_mem s c hc)

theorem sanitize_tagged_hash (s : String) :
    replacerReplace (stringsTrimRight ("host_id_" ++ getMD5Hash s) '.') =
      "host_id_" ++ getMD5Hash s := by
  have h1 : stringsTrimRight ("host_id_" ++ getMD5Hash s) '.' = "host_id_" ++ getMD5Hash s := by
    apply String.ext
    simp only [stringsTrimRight]
    apply rdropWhile_of_forall
    intro c hc
    have := tagged_hash_not_replaced s c hc
    simp only [List.mem_cons, not_or] at this
    simp [this.1]
  rw [h1]
  exact replacerReplace_of_forall (tagged_hash_not_replaced s)

/-- Every result of `getHostName` is the sanitised form of a tagged candidate. -/
theorem getHostName_shape {lookupAddr : String → Option (List String)} {inData : Value}
    {hostName ident : String} (h : getHostName lookupAddr inData hostName = some ident) :
    ∃ x, ident = replacerReplace (stringsTrimRight ("host_id_" ++ x) '.') := by
  simp only [getHostName, Option.map_eq_some'] at h
  obtain ⟨fh, _, rfl⟩ := h
  by_cases hf : fh.1 = false
  · exact ⟨getMD5Hash fh.2, by simp [hf]⟩
  · exact ⟨fh.2, by simp [hf]⟩

theorem getNamespace_segment {ident : String}
    (h : ∀ c ∈ ident.data, c ∉ ['.', '/', Char.ofNat 92, ':', '%']) :
    getNamespace ident = [ident] := by
  have hdot : '.' ∉ ident.data := fun hc => h _ hc (by decide)
  have hslash : '/' ∉ ident.data := fun hc => h _ hc (by decide)
  have hrep : stringsReplace ident '.' '-' = ident := by
    apply String.ext
    rw [replace_dot_data]
    conv_rhs => rw [← List.map_id ident.data]
    apply List.map_congr_left
    intro c hc
    have : c ≠ '.' := fun e => hdot (e ▸ hc)
    simp [this]
  simp only [getNamespace, hrep, stringsSplit, splitChars_of_not_mem hslash, List.map_cons,
    List.map_nil]

/-- C5: whenever `getHostName` returns, for every answer of the reverse-DNS lookup, the
identifier starts with "host_id_" and contains none of '.', '/', '\', ':' and '%'; appended
to a key path it adds exactly one namespace segment, the identifier itself. -/
theorem getHostName_sanitized (lookupAddr : String → Option (List String)) (inData : Value)
    (hostName ident : String) (h : getHostName lookupAddr inData hostName = some ident) :
    "host_id_".data <+: ident.data ∧
    (∀ c ∈ ident.data, c ∉ ['.', '/', Char.ofNat 92, ':', '%']) ∧
    ∀ parent : String, getNamespace (parent ++ "/" ++ ident) = getNamespace parent ++ [ident] := by
  obtain ⟨x, rfl⟩ := getHostName_shape h
  have hbad := replacerReplace_not_mem (stringsTrimRight ("host_id_" ++ x) '.')
  refine ⟨sanitize_tagged x, hbad, fun parent => ?_⟩
  rw [getNamespace_append, getNamespace_segment hbad]

/-- C5, instance: the peer 10.0.0.1:9000, resolved to web1.example.com. -/
theorem getHostName_sanitized_witness :
    getHostName lookupWeb1 (peerOf "10.0.0.1:9000") "0" = some "host_id_web1_example_com" ∧
    ("host_id_".data <+: "host_id_web1_example_com".data ∧
     (∀ c ∈ "host_id_web1_example_com".data, c ∉ ['.', '/', Char.ofNat 92, ':', '%']) ∧
     ∀ parent : String, getNamespace (parent ++ "/" ++ "host_id_web1_example_com") =
       getNamespace parent ++ ["host_id_web1_example_com"]) :=
  ⟨by decide, getHostName_sanitized lookupWeb1 (peerOf "10.0.0.1:9000") "0"
    "host_id_web1_example_com" (by decide)⟩

/-- A mapping with a string "server" field that has neither address shape, or whose lookup
fails, is identified by the hash of that string. -/
theorem getHostName_obj_hash (lk : String → Option (List String)) (hostName : String)
    (mtype : List (String × Value)) (server : String)
    (hl : mtype.lookup "server" = some (.data (.string server)))
    (hc : (stringsCount server '.' ≠ 3 ∧ stringsContains server "::" = false) ∨
       (stringsCount server '.' = 3 ∧ lk ((stringsSplit server ':').headD "") = none) ∨
       (stringsCount server '.' ≠ 3 ∧ stringsContains server "::" = true ∧
         lk (stringsTrimLeft ((stringsSplit server ']').headD "") '[') = none)) :
    getHostName lk (.obj mtype) hostName = some ("host_id_" ++ getMD5Hash server) := by
  rcases hc with ⟨h1, h2⟩ | ⟨h1, h2⟩ | ⟨h1, h2, h3⟩
  · simp [getHostName, hl, NUM_DOT_IN_IP, h1, h2, sanitize_tagged_hash]
  · simp only [getHostName, hl, NUM_DOT_IN_IP, h1, h2, if_true]
    simp [sanitize_tagged_hash]
  · simp only [getHostName, hl, NUM_DOT_IN_IP, h1, h2, h3, if_true, if_false]
    simp [sanitize_tagged_hash]

/-- C6: a mapping whose "server" string has neither address shape, or whose reverse-DNS lookup
fails, gets "host_id_" followed by the hex MD5 digest of the raw "server" string; a record
that is not a mapping gets "host_id_" followed by the hex MD5 digest of the fallback label.
The digest has 16 bytes, written as 32 lower-case hex characters; the final sanitisation
leaves the value unchanged; with neither address shape the DNS answer is irrelevant. -/
theorem getHostName_hashed (lookupAddr : String → Option (List String)) (hostName : String) :
    (∀ (mtype : List (String × Value)) (server : String),
      mtype.lookup "server" = some (.data (.string server)) →
      ((stringsCount server '.' ≠ 3 ∧ stringsContains server "::" = false) ∨
       (stringsCount server '.' = 3 ∧ lookupAddr ((stringsSplit server ':').headD "") = none) ∨
       (stringsCount server '.' ≠ 3 ∧ stringsContains server "::" = true ∧
         lookupAddr (stringsTrimLeft ((stringsSplit server ']').headD "") '[') = none)) →
      getHostName lookupAddr (.obj mtype) hostName = some ("host_id_" ++ getMD5Hash server)) ∧
    (∀ inData : Value, (∀ mtype, inData ≠ .obj mtype) →
      getHostName lookupAddr inData hostName = some ("host_id_" ++ getMD5Hash hostName)) ∧
    (∀ text : String,
      getMD5Hash text = hexEncodeToString (md5Sum (stringBytes text)) ∧
      (md5Sum (stringBytes text)).length = 16 ∧
      (getMD5Hash text).data.length = 32 ∧
      (∀ c ∈ (getMD5Hash text).data, c ∈ "0123456789abcdef".data) ∧
      replacerReplace (stringsTrimRight ("host_id_" ++ getMD5Hash text) '.') =
        "host_id_" ++ getMD5Hash text) ∧
    (∀ (lookup2 : String → Option (List String)) (mtype : List (String × Value))
      (server : String), mtype.lookup "server" = some (.data (.string server)) →
      stringsCount server '.' ≠ 3 → stringsContains server "::" = false →
      getHostName lookupAddr (.obj mtype) hostName = getHostName lookup2 (.obj mtype) hostName) := by
  have key := fun lk => getHostName_obj_hash lk hostName
  refine ⟨key lookupAddr, ?_, ?_, ?_⟩
  · intro inData hne
    cases inData with
    | obj m => exact absurd rfl (hne m)
    | null => simp [getHostName, sanitize_tagged_hash]
    | bool b => simp [getHostName, sanitize_tagged_hash]
    | data d => simp [getHostName, sanitize_tagged_hash]
    | arr xs => simp [getHostName, sanitize_tagged_hash]
  · intro text
    exact ⟨rfl, md5Sum_length _, getMD5Hash_length text, getMD5Hash_mem text,
      sanitize_tagged_hash text⟩
  · intro lookup2 mtype server hl h1 h2
    rw [key lookupAddr mtype server hl (Or.inl ⟨h1, h2⟩),
      key lookup2 mtype server hl (Or.inl ⟨h1, h2⟩)]

set_option maxRecDepth 100000 in
/-- C6, instance: the peer "badhost", the peer 10.0.0.1:9000 when DNS is down, and a peer
record that is a number; the digest of "badhost" is the one `md5sum` prints. -/
theorem getHostName_hashed_witness :
    getMD5Hash "badhost" = "222f737ee64382b5dde20a919ab4a34b" ∧
    getHostName lookupWeb1 (peerOf "badhost") "1" = some ("host_id_" ++ getMD5Hash "badhost") ∧
    getHostName lookupNone (peerOf "10.0.0.1:9000") "0" =
      some ("host_id_" ++ getMD5Hash "10.0.0.1:9000") ∧
    getHostName lookupWeb1 (.data (.float64 7)) "2" = some ("host_id_" ++ getMD5Hash "2") :=
  ⟨by decide,
   (getHostName_hashed lookupWeb1 "1").1 _ "badhost" rfl (Or.inl (by decide)),
   (getHostName_hashed lookupNone "0").1 _ "10.0.0.1:9000" rfl
     (Or.inr (Or.inl (by decide))),
   (getHostName_hashed lookupWeb1 "2").2.1 _ (by intro m; exact Value.noConfusion)⟩

theorem headD_splitChars (sep : Char) (l : List Char) :
    (splitChars sep l).headD [] = l.takeWhile fun c => c ≠ sep := by
  induction l with
  | nil => simp [splitChars]
  | cons c cs ih =>
    by_cases h : c = sep
    · subst h
      simp [splitChars_cons_sep]
    · obtain ⟨seg, segs, h1, h2⟩ := splitChars_cons_ne h cs
      rw [h1] at ih
      rw [h2]
      simp only [List.headD_cons] at ih ⊢
      simp [List.takeWhile_cons, h, ih]

theorem headD_stringsSplit (s : String) (sep : Char) :
    (stringsSplit s sep).headD "" = ⟨s.data.takeWhile fun c => c ≠ sep⟩ := by
  have h := headD_splitChars sep s.data
  simp only [stringsSplit]
  cases hs : splitChars sep s.data with
  | nil => exact absurd hs (splitChars_ne_nil _ _)
  | cons seg segs =>
    rw [hs] at h
    simp only [List.headD_cons] at h
    simp [h]

/-- C10, the statement the code violates: for the IPv4-mapped peer "[::ffff:1.2.3.4]:80",
which has exactly three '.', the claim has the lookup made on "[::ffff:1.2.3.4]", which this
DNS service resolves; the code looks up "[", fails, and falls back to the hash. -/
theorem getHostName_lookup_not_before_last_colon :
    stringsCount "[::ffff:1.2.3.4]:80" '.' = 3 ∧
    specLookupAddress "[::ffff:1.2.3.4]:80" = "[::ffff:1.2.3.4]" ∧
    resolvedIPv4 lookupButBracket (specLookupAddress "[::ffff:1.2.3.4]:80")
      "[::ffff:1.2.3.4]:80" = "host_id_peer_example_com" ∧
    getHostName lookupButBracket (peerOf "[::ffff:1.2.3.4]:80") "0" ≠
      some (resolvedIPv4 lookupButBracket (specLookupAddress "[::ffff:1.2.3.4]:80")
        "[::ffff:1.2.3.4]:80") := by
  refine ⟨by decide, by decide, by decide, ?_⟩
  have h := getHostName_obj_hash lookupButBracket "0"
    [("server", .data (.string "[::ffff:1.2.3.4]:80"))] "[::ffff:1.2.3.4]:80" rfl
    (Or.inr (Or.inl (by decide)))
  have h2 : resolvedIPv4 lookupButBracket (specLookupAddress "[::ffff:1.2.3.4]:80")
      "[::ffff:1.2.3.4]:80" = "host_id_peer_example_com" := by decide
  rw [peerOf, h, h2]
  intro e
  have e1 := congrArg (fun o => (o.getD "").data.length) e
  simp only [Option.getD_some, String.data_append, List.length_append, getMD5Hash_length] at e1
  revert e1
  decide

/-- C10, amended: for a peer mapping whose "server" string has exactly three '.' (port
included), the address passed to the reverse-DNS lookup is the "server" string up to its first
':' (the whole string when it has no ':'); when the lookup succeeds the result is "host_id_"
followed by the returned names joined with '.', and when it fails "host_id_" followed by the
hex MD5 digest of the "server" string, in both cases with trailing dots stripped and
'.', '/', '\', ':', '%' replaced by '_'. -/
theorem getHostName_ipv4 (lookupAddr : String → Option (List String))
    (mtype : List (String × Value)) (server hostName : String)
    (hserver : mtype.lookup "server" = some (.data (.string server)))
    (hdots : stringsCount server '.' = 3) :
    getHostName lookupAddr (.obj mtype) hostName =
      some (resolvedIPv4 lookupAddr ⟨server.data.takeWhile fun c => c ≠ ':'⟩ server) ∧
    (':' ∉ server.data → (⟨server.data.takeWhile fun c => c ≠ ':'⟩ : String) = server) ∧
    ∀ hName, lookupAddr ⟨server.data.takeWhile fun c => c ≠ ':'⟩ = some hName →
      getHostName lookupAddr (.obj mtype) hostName =
        some (replacerReplace (stringsTrimRight ("host_id_" ++ stringsJoin hName ".") '.')) := by
  have main : getHostName lookupAddr (.obj mtype) hostName =
      some (resolvedIPv4 lookupAddr ⟨server.data.takeWhile fun c => c ≠ ':'⟩ server) := by
    simp only [getHostName, hserver, NUM_DOT_IN_IP, hdots, if_true, headD_stringsSplit,
      resolvedIPv4]
    cases lookupAddr ⟨server.data.takeWhile fun c => c ≠ ':'⟩ <;> simp
  refine ⟨main, ?_, ?_⟩
  · intro hc
    apply String.ext
    simp only [List.takeWhile_eq_self_iff]
    intro c hcm
    have hne : c ≠ ':' := fun e => hc (e ▸ hcm)
    simpa using hne
  · intro hName hl
    rw [main, resolvedIPv4, hl]

/-- C10, instance: 10.0.0.1:9000 is looked up as 10.0.0.1. -/
theorem getHostName_ipv4_witness :
    getHostName lookupWeb1 (peerOf "10.0.0.1:9000") "0" =
      some (resolvedIPv4 lookupWeb1 ⟨"10.0.0.1:9000".data.takeWhile fun c => c ≠ ':'⟩
        "10.0.0.1:9000") :=
  (getHostName_ipv4 lookupWeb1 [("server", .data (.string "10.0.0.1:9000"))] "10.0.0.1:9000" "0"
    rfl (by decide)).1

/-! ## The value flattener -/

mutual
theorem Value.induct_aux {P : Value → Prop} (hnull : P .null) (hbool : ∀ b, P (.bool b))
    (hdata : ∀ d, P (.data d)) (harr : ∀ xs, (∀ x ∈ xs, P x) → P (.arr xs))
    (hobj : ∀ m : List (String × Value), (∀ kv ∈ m, P kv.2) → P (.obj m)) : ∀ v, P v
  | .null => hnull
  | .bool b => hbool b
  | .data d => hdata d
  | .arr xs => harr xs (Value.induct_arr hnull hbool hdata harr hobj xs)
  | .obj m => hobj m (Value.induct_map hnull hbool hdata harr hobj m)
theorem Value.induct_arr {P : Value → Prop} (hnull : P .null) (hbool : ∀ b, P (.bool b))
    (hdata : ∀ d, P (.data d)) (harr : ∀ xs, (∀ x ∈ xs, P x) → P (.arr xs))
    (hobj : ∀ m : List (String × Value), (∀ kv ∈ m, P kv.2) → P (.obj m)) :
    ∀ xs : List Value, ∀ x ∈ xs, P x
  | [], _, h => absurd h (List.not_mem_nil _)
  | y :: ys, x, h => by
    rcases List.mem_cons.1 h with rfl | h
    · exact Value.induct_aux hnull hbool hdata harr hobj _
    · exact Value.induct_arr hnull hbool hdata harr hobj ys x h
theorem Value.induct_map {P : Value → Prop} (hnull : P .null) (hbool : ∀ b, P (.bool b))
    (hdata : ∀ d, P (.data d)) (harr : ∀ xs, (∀ x ∈ xs, P x) → P (.arr xs))
    (hobj : ∀ m : List (String × Value), (∀ kv ∈ m, P kv.2) → P (.obj m)) :
    ∀ m : List (String × Value), ∀ kv ∈ m, P kv.2
  | [], _, h => absurd h (List.not_mem_nil _)
  | (k, y) :: ys, x, h => by
    rcases List.mem_cons.1 h with rfl | h
    · exact Value.induct_aux hnull hbool hdata harr hobj _
    · exact Value.induct_map hnull hbool hdata harr hobj ys x h
end

theorem parseArrMetrics_cons (lk : String → Option (List String)) (out : List MetricType)
    (x : Value) (rest : List Value) (i : Nat) (parent : String) :
    parseArrMetrics lk out (x :: rest) i parent =
      (flattenElement lk out parent i x).bind fun o => parseArrMetrics lk o rest (i + 1) parent := by
  rw [parseArrMetrics]
  simp only [flattenElement]
  split <;> rename_i h <;> rw [h] <;> rfl

theorem parseMetrics_cons (lk : String → Option (List String)) (out : List MetricType)
    (k : String) (x : Value) (rest : List (String × Value)) (parent : String) :
    parseMetrics lk out ((k, x) :: rest) parent =
      (switchType lk out x (parent ++ "/" ++ k)).bind fun o => parseMetrics lk o rest parent := by
  rw [parseMetrics]
  split <;> rename_i h <;> rw [h] <;> rfl

theorem flattenElement_acc {lk : String → Option (List String)} {x : Value}
    (hx : ∀ out ak, switchType lk out x ak = (switchType lk [] x ak).map (out ++ ·))
    (out : List MetricType) (parent : String) (i : Nat) :
    flattenElement lk out parent i x = (flattenElement lk [] parent i x).map (out ++ ·) := by
  simp only [flattenElement]
  split
  · cases getHostName lk x (strconvItoa i) with
    | none => rfl
    | some h => exact hx _ _
  · exact hx _ _

theorem parseArrMetrics_acc_of {lk : String → Option (List String)} (xs : List Value)
    (hxs : ∀ x ∈ xs, ∀ out ak, switchType lk out x ak = (switchType lk [] x ak).map (out ++ ·)) :
    ∀ (out : List MetricType) (i : Nat) (parent : String),
      parseArrMetrics lk out xs i parent = (parseArrMetrics lk [] xs i parent).map (out ++ ·) := by
  induction xs with
  | nil => intro out i parent; simp [parseArrMetrics]
  | cons x rest ih =>
    intro out i parent
    have ih1 := ih fun y hy => hxs y (List.mem_cons_of_mem _ hy)
    rw [parseArrMetrics_cons, parseArrMetrics_cons,
      flattenElement_acc (hxs x (List.mem_cons_self _ _)) out]
    cases flattenElement lk [] parent i x with
    | none => rfl
    | some d =>
      simp only [Option.map_some', Option.some_bind]
      rw [ih1 (out ++ d), ih1 d]
      cases parseArrMetrics lk [] rest (i + 1) parent with
      | none => rfl
      | some e => simp

theorem parseMetrics_acc_of {lk : String → Option (List String)} (m : List (String × Value))
    (hm : ∀ kv ∈ m, ∀ out ak,
      switchType lk out kv.2 ak = (switchType lk [] kv.2 ak).map (out ++ ·)) :
    ∀ (out : List MetricType) (parent : String),
      parseMetrics lk out m parent = (parseMetrics lk [] m parent).map (out ++ ·) := by
  induction m with
  | nil => intro out parent; simp [parseMetrics]
  | cons kv rest ih =>
    intro out parent
    obtain ⟨k, x⟩ := kv
    have ih1 := ih fun y hy => hm y (List.mem_cons_of_mem _ hy)
    rw [parseMetrics_cons, parseMetrics_cons, hm (k, x) (List.mem_cons_self _ _) out]
    cases switchType lk [] x (parent ++ "/" ++ k) with
    | none => rfl
    | some d =>
      simp only [Option.map_some', Option.some_bind]
      rw [ih1 (out ++ d), ih1 d]
      cases parseMetrics lk [] rest parent with
      | none => rfl
      | some e => simp

/-- The accumulator is only appended to. -/
theorem switchType_acc (lk : String → Option (List String)) :
    ∀ (v : Value) (out : List MetricType) (ak : String),
      switchType lk out v ak = (switchType lk [] v ak).map (out ++ ·) := by
  intro v
  induction v using Value.induct_aux with
  | hnull => intro out ak; simp [switchType]
  | hbool b => intro out ak; simp only [switchType]; split <;> simp
  | hdata d => intro out ak; simp only [switchType]; split <;> simp
  | harr xs ih => intro out ak; simp only [switchType]; exact parseArrMetrics_acc_of xs ih out 0 ak
  | hobj m ih => intro out ak; simp only [switchType]; exact parseMetrics_acc_of m ih out ak

theorem parseArrMetrics_acc (lk : String → Option (List String)) (xs : List Value)
    (out : List MetricType) (i : Nat) (parent : String) :
    parseArrMetrics lk out xs i parent = (parseArrMetrics lk [] xs i parent).map (out ++ ·) :=
  parseArrMetrics_acc_of xs (fun x _ => switchType_acc lk x) out i parent

theorem parseMetrics_acc (lk : String → Option (List String)) (m : List (String × Value))
    (out : List MetricType) (parent : String) :
    parseMetrics lk out m parent = (parseMetrics lk [] m parent).map (out ++ ·) :=
  parseMetrics_acc_of m (fun kv _ => switchType_acc lk kv.2) out parent

theorem hasServer_getHostName (lk : String → Option (List String)) {x : Value}
    (hx : hasServer x = true) (fb : String) : ∃ h, getHostName lk x fb = some h := by
  cases x with
  | null => exact ⟨_, rfl⟩
  | bool b => exact ⟨_, rfl⟩
  | data d => exact ⟨_, rfl⟩
  | arr xs => exact ⟨_, rfl⟩
  | obj m =>
    simp only [hasServer] at hx
    split at hx
    · rename_i s hl
      simp only [getHostName, hl]
      split
      · cases lk ((stringsSplit s ':').headD "") <;> exact ⟨_, rfl⟩
      · split
        · cases lk (stringsTrimLeft ((stringsSplit s ']').headD "") '[') <;> exact ⟨_, rfl⟩
        · exact ⟨_, rfl⟩
    · exact absurd hx (by simp)

theorem flattenElement_segment (lk : String → Option (List String)) (out : List MetricType)
    (parent : String) (i : Nat) (x : Value)
    (hx : (stringsSplit parent '/').getLastD "" = "peers" → hasServer x = true) :
    flattenElement lk out parent i x =
      switchType lk out x (parent ++ "/" ++ arraySegment lk parent i x) := by
  simp only [flattenElement, arraySegment]
  split
  · rename_i hp
    obtain ⟨h, hh⟩ := hasServer_getHostName lk (hx hp) (strconvItoa i)
    rw [hh]
    rfl
  · rfl

/-- The tuples of a list of leaves: those the filter accepts, in order. -/
theorem emitted_append (a b : List (String × Scalar)) :
    ((a ++ b).filter fun leaf => !checkIgnoreMetric leaf.1).map tupleOf =
      (a.filter fun leaf => !checkIgnoreMetric leaf.1).map tupleOf ++
        (b.filter fun leaf => !checkIgnoreMetric leaf.1).map tupleOf := by
  simp

theorem parseArrMetrics_leaves_of {lk : String → Option (List String)} (xs : List Value)
    (hxs : ∀ x ∈ xs, ∀ ak, peersOK lk x ak = true → switchType lk [] x ak =
      some (((leaves lk x ak).filter fun leaf => !checkIgnoreMetric leaf.1).map tupleOf)) :
    ∀ (i : Nat) (parent : String), peersOKArr lk xs i parent = true →
      parseArrMetrics lk [] xs i parent =
        some (((leavesArr lk xs i parent).filter fun leaf => !checkIgnoreMetric leaf.1).map
          tupleOf) := by
  induction xs with
  | nil => intro i parent _; simp [parseArrMetrics, leavesArr]
  | cons x rest ih =>
    intro i parent hok
    simp only [peersOKArr, Bool.and_eq_true] at hok
    obtain ⟨⟨h1, h2⟩, h3⟩ := hok
    have hseg : (stringsSplit parent '/').getLastD "" = "peers" → hasServer x = true := by
      intro hp
      rw [if_pos hp] at h1
      exact h1
    rw [parseArrMetrics_cons, flattenElement_segment lk [] parent i x hseg,
      hxs x (List.mem_cons_self _ _) _ h2, Option.some_bind, parseArrMetrics_acc,
      ih (fun y hy => hxs y (List.mem_cons_of_mem _ hy)) (i + 1) parent h3, leavesArr,
      emitted_append]
    rfl

theorem parseMetrics_leaves_of {lk : String → Option (List String)}
    (m : List (String × Value))
    (hm : ∀ kv ∈ m, ∀ ak, peersOK lk kv.2 ak = true → switchType lk [] kv.2 ak =
      some (((leaves lk kv.2 ak).filter fun leaf => !checkIgnoreMetric leaf.1).map tupleOf)) :
    ∀ (parent : String), peersOKMap lk m parent = true →
      parseMetrics lk [] m parent =
        some (((leavesMap lk m parent).filter fun leaf => !checkIgnoreMetric leaf.1).map
          tupleOf) := by
  induction m with
  | nil => intro parent _; simp [parseMetrics, leavesMap]
  | cons kv rest ih =>
    intro parent hok
    obtain ⟨k, x⟩ := kv
    simp only [peersOKMap, Bool.and_eq_true] at hok
    obtain ⟨h2, h3⟩ := hok
    rw [parseMetrics_cons, hm (k, x) (List.mem_cons_self _ _) _ h2, Option.some_bind,
      parseMetrics_acc, ih (fun y hy => hm y (List.mem_cons_of_mem _ hy)) parent h3, leavesMap,
      emitted_append]
    rfl

theorem switchType_leaves (lk : String → Option (List String)) :
    ∀ (v : Value) (ak : String), peersOK lk v ak = true → switchType lk [] v ak =
      some (((leaves lk v ak).filter fun leaf => !checkIgnoreMetric leaf.1).map tupleOf) := by
  intro v
  induction v using Value.induct_aux with
  | hnull => intro ak _; simp [switchType, leaves]
  | hbool b =>
    intro ak _
    cases b <;> simp only [switchType, leaves] <;> split <;> rename_i h <;>
      simp [h, tupleOf, Scalar.emitted]
  | hdata d =>
    intro ak _
    simp only [switchType, leaves]
    split <;> rename_i h <;> simp [h, tupleOf, Scalar.emitted]
  | harr xs ih =>
    intro ak hok
    simp only [peersOK] at hok
    simp only [switchType, leaves]
    exact parseArrMetrics_leaves_of xs ih 0 ak hok
  | hobj m ih =>
    intro ak hok
    simp only [peersOK] at hok
    simp only [switchType, leaves]
    exact parseMetrics_leaves_of m ih ak hok

/-- C1: when each mapping element of an array under a key path ending in "peers" carries a
string "server" field, `parseMetrics` appends to the accumulator exactly one tuple for each
scalar leaf whose full key path `checkIgnoreMetric` does not reject, in traversal order, and
nothing else.  The tuple of a leaf has the namespace `getNamespace` of its full key path and
the scalar as value, `true` as the integer 1 and `false` as the integer 0. -/
theorem parseMetrics_emits_leaves (lookupAddr : String → Option (List String))
    (outMetric : List MetricType) (inData : List (String × Value)) (parentKey : String)
    (hpeers : peersOKMap lookupAddr inData parentKey = true) :
    parseMetrics lookupAddr outMetric inData parentKey =
      some (outMetric ++
        ((leavesMap lookupAddr inData parentKey).filter fun leaf =>
          !checkIgnoreMetric leaf.1).map tupleOf) ∧
    ∀ ak : String,
      tupleOf (ak, .bool true) = ⟨getNamespace ak, .int 1⟩ ∧
      tupleOf (ak, .bool false) = ⟨getNamespace ak, .int 0⟩ ∧
      ∀ d : Data, tupleOf (ak, .data d) = ⟨getNamespace ak, d⟩ := by
  refine ⟨?_, fun ak => ⟨rfl, rfl, fun d => rfl⟩⟩
  rw [parseMetrics_acc,
    parseMetrics_leaves_of inData (fun kv _ => switchType_leaves lookupAddr kv.2) parentKey
      hpeers]
  rfl

set_option maxRecDepth 100000 in
/-- C1, instance: the status document `statusDoc` under the root "staples/nginx". -/
theorem parseMetrics_emits_leaves_witness :
    peersOKMap lookupWeb1 statusDoc "staples/nginx" = true ∧
    parseMetrics lookupWeb1 [] statusDoc "staples/nginx" =
      some ([] ++ ((leavesMap lookupWeb1 statusDoc "staples/nginx").filter fun leaf =>
        !checkIgnoreMetric leaf.1).map tupleOf) ∧
    parseMetrics lookupWeb1 [] statusDoc "staples/nginx" =
      some [⟨["staples", "nginx", "active"], .int 1⟩,
        ⟨["staples", "nginx", "peers", "host_id_web1_example_com", "id"], .float64 5⟩,
        ⟨["staples", "nginx", "peers", "host_id_web1_example_com", "backup"], .int 0⟩,
        ⟨["staples", "nginx", "peers", "host_id_222f737ee64382b5dde20a919ab4a34b", "name"],
          .string "b"⟩] :=
  ⟨by decide,
   (parseMetrics_emits_leaves lookupWeb1 [] statusDoc "staples/nginx" (by decide)).1,
   by decide⟩

/-- C2, the failing run: a "peers" array holding a mapping without a "server" field, or with a
"server" field that is not a string, makes the type assertion of `getHostName` panic, and the
panic goes through `parseArrMetrics`, `switchType` and `parseMetrics`, whatever the
reverse-DNS lookup answers. -/
theorem parseMetrics_panics_without_server (lookupAddr : String → Option (List String))
    (outMetric : List MetricType) :
    parseMetrics lookupAddr outMetric [("peers", .arr [.obj [("id", .data (.float64 1))]])]
      "staples/nginx" = none ∧
    parseMetrics lookupAddr outMetric [("peers", .arr [.obj [("server", .data (.float64 1))]])]
      "staples/nginx" = none ∧
    parseMetrics lookupAddr outMetric [("peers", .arr [.obj [("server", .null)]])]
      "staples/nginx" = none := by
  have hp : (stringsSplit ("staples/nginx" ++ "/" ++ "peers") '/').getLastD "" = "peers" := by
    decide
  refine ⟨?_, ?_, ?_⟩ <;>
    simp only [parseMetrics_cons, switchType, parseArrMetrics_cons, flattenElement, hp, if_true] <;>
    rfl

theorem parseArrMetrics_foldlM (lk : String → Option (List String)) (xs : List Value) :
    ∀ (out : List MetricType) (i : Nat) (parent : String),
      parseArrMetrics lk out xs i parent =
        (xs.enumFrom i).foldlM (fun acc p => flattenElement lk acc parent p.1 p.2) out := by
  induction xs with
  | nil => intro out i parent; simp [parseArrMetrics]
  | cons x rest ih =>
    intro out i parent
    rw [parseArrMetrics_cons, List.enumFrom_cons, List.foldlM_cons]
    cases flattenElement lk out parent i x with
    | none => rfl
    | some o => exact ih o (i + 1) parent

theorem prefix_of_append_key {a b : String} {ns : List String}
    (h : getNamespace (a ++ "/" ++ b) <+: ns) : getNamespace a <+: ns := by
  rw [getNamespace_append] at h
  exact (List.prefix_append _ _).trans h

theorem flattenElement_prefix_of {lk : String → Option (List String)} {x : Value}
    (hx : ∀ ak d, switchType lk [] x ak = some d → ∀ t ∈ d, getNamespace ak <+: t.Namespace_)
    {parent : String} {i : Nat} {d : List MetricType}
    (h : flattenElement lk [] parent i x = some d) :
    ∀ t ∈ d, getNamespace parent <+: t.Namespace_ := by
  intro t ht
  simp only [flattenElement] at h
  split at h
  · cases hh : getHostName lk x (strconvItoa i) with
    | none => rw [hh] at h; exact absurd h (by simp)
    | some hn =>
      rw [hh] at h
      exact prefix_of_append_key (hx _ _ h t ht)
  · exact prefix_of_append_key (hx _ _ h t ht)

theorem parseArrMetrics_prefix_of {lk : String → Option (List String)} (xs : List Value)
    (hxs : ∀ x ∈ xs, ∀ ak d, switchType lk [] x ak = some d →
      ∀ t ∈ d, getNamespace ak <+: t.Namespace_) :
    ∀ (i : Nat) (parent : String) (d : List MetricType),
      parseArrMetrics lk [] xs i parent = some d →
      ∀ t ∈ d, getNamespace parent <+: t.Namespace_ := by
  induction xs with
  | nil =>
    intro i parent d h t ht
    simp only [parseArrMetrics, Option.some.injEq] at h
    subst h
    exact absurd ht (List.not_mem_nil _)
  | cons x rest ih =>
    intro i parent d h t ht
    rw [parseArrMetrics_cons] at h
    cases h1 : flattenElement lk [] parent i x with
    | none => rw [h1] at h; exact absurd h (by simp)
    | some d1 =>
      rw [h1, Option.some_bind, parseArrMetrics_acc] at h
      cases h2 : parseArrMetrics lk [] rest (i + 1) parent with
      | none => rw [h2] at h; exact absurd h (by simp)
      | some d2 =>
        rw [h2] at h
        simp only [Option.map_some', Option.some.injEq] at h
        subst h
        rcases List.mem_append.1 ht with ht | ht
        · exact flattenElement_prefix_of (hxs x (List.mem_cons_self _ _)) h1 t ht
        · exact ih (fun y hy => hxs y (List.mem_cons_of_mem _ hy)) (i + 1) parent d2 h2 t ht

theorem parseMetrics_prefix_of {lk : String → Option (List String)} (m : List (String × Value))
    (hm : ∀ kv ∈ m, ∀ ak d, switchType lk [] kv.2 ak = some d →
      ∀ t ∈ d, getNamespace ak <+: t.Namespace_) :
    ∀ (parent : String) (d : List MetricType),
      parseMetrics lk [] m parent = some d →
      ∀ t ∈ d, getNamespace parent <+: t.Namespace_ := by
  induction m with
  | nil =>
    intro parent d h t ht
    simp only [parseMetrics, Option.some.injEq] at h
    subst h
    exact absurd ht (List.not_mem_nil _)
  | cons kv rest ih =>
    intro parent d h t ht
    obtain ⟨k, x⟩ := kv
    rw [parseMetrics_cons] at h
    cases h1 : switchType lk [] x (parent ++ "/" ++ k) with
    | none => rw [h1] at h; exact absurd h (by simp)
    | some d1 =>
      rw [h1, Option.some_bind, parseMetrics_acc] at h
      cases h2 : parseMetrics lk [] rest parent with
      | none => rw [h2] at h; exact absurd h (by simp)
      | some d2 =>
        rw [h2] at h
        simp only [Option.map_some', Option.some.injEq] at h
        subst h
        rcases List.mem_append.1 ht with ht | ht
        · exact prefix_of_append_key (hm (k, x) (List.mem_cons_self _ _) _ _ h1 t ht)
        · exact ih (fun y hy => hm y (List.mem_cons_of_mem _ hy)) parent d2 h2 t ht

/-- Every tuple flattened from a value at key path `ak` has a namespace that starts with the
namespace of `ak`. -/
theorem switchType_prefix (lk : String → Option (List String)) :
    ∀ (v : Value) (ak : String) (d : List MetricType), switchType lk [] v ak = some d →
      ∀ t ∈ d, getNamespace ak <+: t.Namespace_ := by
  intro v
  induction v using Value.induct_aux with
  | hnull =>
    intro ak d h t ht
    simp only [switchType, Option.some.injEq] at h
    subst h
    exact absurd ht (List.not_mem_nil _)
  | hbool b =>
    intro ak d h t ht
    simp only [switchType] at h
    split at h <;> simp only [Option.some.injEq] at h <;> subst h
    · exact absurd ht (List.not_mem_nil _)
    · simp only [List.nil_append, List.mem_singleton] at ht
      subst ht
      exact List.prefix_refl _
  | hdata d0 =>
    intro ak d h t ht
    simp only [switchType] at h
    split at h <;> simp only [Option.some.injEq] at h <;> subst h
    · exact absurd ht (List.not_mem_nil _)
    · simp only [List.nil_append, List.mem_singleton] at ht
      subst ht
      exact List.prefix_refl _
  | harr xs ih =>
    intro ak d h
    simp only [switchType] at h
    exact parseArrMetrics_prefix_of xs ih 0 ak d h
  | hobj m ih =>
    intro ak d h
    simp only [switchType] at h
    exact parseMetrics_prefix_of m ih ak d h

theorem itoaDigits_mem (fuel : Nat) : ∀ (n : Nat) (acc : List Char) (c : Char),
    c ∈ itoaDigits fuel n acc → c ∈ acc ∨ ∃ d, d < 10 ∧ c = Char.ofNat (48 + d) := by
  induction fuel with
  | zero => intro n acc c h; exact Or.inl h
  | succ fuel ih =>
    intro n acc c h
    simp only [itoaDigits] at h
    have hd : ∀ c, c ∈ Char.ofNat (48 + n % 10) :: acc →
        c ∈ acc ∨ ∃ d, d < 10 ∧ c = Char.ofNat (48 + d) := by
      intro c hc
      rcases List.mem_cons.1 hc with rfl | hc
      · exact Or.inr ⟨n % 10, Nat.mod_lt _ (by decide), rfl⟩
      · exact Or.inl hc
    split at h
    · exact hd c h
    · rcases ih _ _ c h with h1 | h1
      · exact hd c h1
      · exact Or.inr h1

theorem tagged_ne_itoa {hostName : String} (h : "host_id_".data <+: hostName.data) (i : Nat) :
    hostName ≠ strconvItoa i := by
  intro e
  have hmem : 'h' ∈ (strconvItoa i).data := by
    rw [← e]
    exact List.IsPrefix.mem (by decide) h
  rcases itoaDigits_mem _ _ _ _ hmem with h1 | ⟨d, hd, h1⟩
  · exact absurd h1 (List.not_mem_nil _)
  · revert h1
    interval_cases d <;> decide

theorem splitChars_replace_dot (l : List Char) :
    splitChars '/' (l.map fun c => if c = '.' then '-' else c) =
      (splitChars '/' l).map fun seg => seg.map fun c => if c = '.' then '-' else c := by
  induction l with
  | nil => simp [splitChars]
  | cons c cs ih =>
    by_cases h : c = '/'
    · subst h
      simp [splitChars_cons_sep, ih]
    · obtain ⟨seg, segs, h1, h2⟩ := splitChars_cons_ne h cs
      have h3 : (if c = '.' then '-' else c) ≠ '/' := by
        by_cases hd : c = '.'
        · simp [hd]
        · simpa [hd] using h
      obtain ⟨seg1, segs1, h4, h5⟩ := splitChars_cons_ne h3
        (cs.map fun c => if c = '.' then '-' else c)
      rw [List.map_cons, h5, h2]
      rw [ih, h1] at h4
      simp only [List.map_cons, List.cons.injEq] at h4
      obtain ⟨rfl, rfl⟩ := h4
      simp

theorem getNamespace_last_peers {parent : String}
    (h : (stringsSplit parent '/').getLastD "" = "peers") :
    (getNamespace parent).getLast? = some "peers" := by
  have hne := splitChars_ne_nil '/' parent.data
  simp only [getNamespace, stringsSplit, replace_dot_data, splitChars_replace_dot,
    List.map_map, List.getLast?_map]
  simp only [stringsSplit, List.getLastD_eq_getLast?, List.getLast?_map] at h
  cases hl : (splitChars '/' parent.data).getLast? with
  | none => exact absurd (List.getLast?_eq_none_iff.1 hl) hne
  | some seg =>
    rw [hl] at h
    simp only [Option.map_some', Option.getD_some] at h
    have hseg : seg = "peers".data := by
      rw [← h]
    subst hseg
    simp only [Option.map_some', Function.comp]
    decide

theorem getElem?_of_prefix_concat {ns pre : List String} {s : String}
    (h : pre ++ [s] <+: ns) : ns.get? pre.length = some s := by
  obtain ⟨t, rfl⟩ := h
  rw [List.get?_eq_getElem?, List.append_assoc, List.getElem?_append_right (Nat.le_refl _)]
  simp

/-- A host identifier is tagged and is one namespace segment of its own. -/
theorem getHostName_segment {lk : String → Option (List String)} {mval : Value}
    {fb hostName : String} (h : getHostName lk mval fb = some hostName) :
    "host_id_".data <+: hostName.data ∧
    ∀ parent : String,
      getNamespace (parent ++ "/" ++ hostName) = getNamespace parent ++ [hostName] := by
  obtain ⟨x, rfl⟩ := getHostName_shape h
  refine ⟨sanitize_tagged x, fun parent => ?_⟩
  rw [getNamespace_append, getNamespace_segment (replacerReplace_not_mem _)]

/-- C4: `parseArrMetrics` flattens element number i with the loop body `flattenElement`.
Under a parent key path whose last segment is "peers" the element goes under
parent + "/" + getHostName(element, decimal i); the identifier starts with "host_id_", is not
the decimal index, and is the namespace segment right after "peers" of every tuple the
element produces.  Under any other parent key path the element goes under
parent + "/" + decimal i. -/
theorem parseArrMetrics_segments (lookupAddr : String → Option (List String))
    (parentKey : String) :
    (∀ (outMetric : List MetricType) (inData : List Value),
      parseArrMetrics lookupAddr outMetric inData 0 parentKey =
        inData.enum.foldlM (fun acc p => flattenElement lookupAddr acc parentKey p.1 p.2)
          outMetric) ∧
    ((stringsSplit parentKey '/').getLastD "" = "peers" →
      (getNamespace parentKey).getLast? = some "peers" ∧
      ∀ (outMetric : List MetricType) (mkey : Nat) (mval : Value),
        flattenElement lookupAddr outMetric parentKey mkey mval =
          ((getHostName lookupAddr mval (strconvItoa mkey)).bind fun hostName =>
            switchType lookupAddr outMetric mval (parentKey ++ "/" ++ hostName)) ∧
        ∀ (hostName : String) (out1 : List MetricType),
          getHostName lookupAddr mval (strconvItoa mkey) = some hostName →
          switchType lookupAddr outMetric mval (parentKey ++ "/" ++ hostName) = some out1 →
          "host_id_".data <+: hostName.data ∧ hostName ≠ strconvItoa mkey ∧
          ∃ new, out1 = outMetric ++ new ∧
            ∀ t ∈ new, t.Namespace_.get? (getNamespace parentKey).length = some hostName) ∧
    ((stringsSplit parentKey '/').getLastD "" ≠ "peers" →
      ∀ (outMetric : List MetricType) (mkey : Nat) (mval : Value),
        flattenElement lookupAddr outMetric parentKey mkey mval =
          switchType lookupAddr outMetric mval (parentKey ++ "/" ++ strconvItoa mkey)) := by
  refine ⟨fun out xs => parseArrMetrics_foldlM lookupAddr xs out 0 parentKey, ?_, ?_⟩
  · intro hp
    refine ⟨getNamespace_last_peers hp, fun out mkey mval => ⟨?_, ?_⟩⟩
    · simp only [flattenElement, if_pos hp]
      cases getHostName lookupAddr mval (strconvItoa mkey) <;> rfl
    · intro hostName out1 hh hs
      obtain ⟨htag, hseg⟩ := getHostName_segment hh
      refine ⟨htag, tagged_ne_itoa htag mkey, ?_⟩
      rw [switchType_acc] at hs
      cases hd : switchType lookupAddr [] mval (parentKey ++ "/" ++ hostName) with
      | none => rw [hd] at hs; exact absurd hs (by simp)
      | some new =>
        rw [hd] at hs
        simp only [Option.map_some', Option.some.injEq] at hs
        refine ⟨new, hs.symm, fun t ht => ?_⟩
        have hpre := switchType_prefix lookupAddr mval _ new hd t ht
        rw [hseg parentKey] at hpre
        exact getElem?_of_prefix_concat hpre
  · intro hp out mkey mval
    simp only [flattenElement, if_neg hp]

set_option maxRecDepth 100000 in
/-- C4, instance: the first peer of `statusDoc` under "staples/nginx/peers". -/
theorem parseArrMetrics_segments_witness :
    "host_id_".data <+: "host_id_web1_example_com".data ∧
    "host_id_web1_example_com" ≠ strconvItoa 0 ∧
    ∃ new,
      [(⟨["staples", "nginx", "peers", "host_id_web1_example_com", "id"], .float64 5⟩ :
          MetricType),
        ⟨["staples", "nginx", "peers", "host_id_web1_example_com", "backup"], .int 0⟩] =
        [] ++ new ∧
      ∀ t ∈ new, t.Namespace_.get? (getNamespace "staples/nginx/peers").length =
        some "host_id_web1_example_com" :=
  ((parseArrMetrics_segments lookupWeb1 "staples/nginx/peers").2.1 (by decide)).2 [] 0
    (.obj [("server", .data (.string "10.0.0.1:9000")), ("id", .data (.float64 5)),
      ("backup", .bool false)]) |>.2 "host_id_web1_example_com" _ (by decide) (by decide)

/-! ## The fetcher and the collector facade -/

/-- C8, the statement the code violates: on a response with status 503 `CollectMetrics` and
`GetMetricTypes` return no metrics and a nil error, not `ErrorRequestFail`. -/
theorem CollectMetrics_nil_error_on_503 :
    CollectMetrics lookupNone http503 [("staples/nginx/active", cfgUrl)] = some ([], none) ∧
    CollectMetrics lookupNone http503 [("staples/nginx/active", cfgUrl)] ≠
      some ([], some .ErrorRequestFail) ∧
    GetMetricTypes lookupNone http503 cfgUrl = some ([], none) ∧
    GetMetricTypes lookupNone http503 cfgUrl ≠ some ([], some .ErrorRequestFail) := by
  decide

theorem getMetrics_of_fetchError {lk : String → Option (List String)}
    {httpGet : String → HttpResult} {url : String} {err : GoError}
    (h : fetchError (httpGet url) = some err) (metrics : List String) :
    getMetrics lk httpGet url metrics = some ([], some err) := by
  simp only [getMetrics]
  cases hg : httpGet url with
  | error err1 =>
    rw [hg] at h
    simp only [fetchError, Option.some.injEq] at h
    simp [h]
  | response sc body =>
    rw [hg] at h
    simp only [fetchError] at h
    simp only [HTTP_200_OK]
    split
    · rename_i hsc
      rw [if_pos hsc] at h
      simp only [Option.some.injEq] at h
      rw [h]
    · rename_i hsc
      rw [if_neg hsc] at h
      cases body with
      | readError e => simp only [Option.some.injEq] at h; simp [h]
      | decodeError e => simp only [Option.some.injEq] at h; simp [h]
      | object j => exact absurd h (by simp)

/-- C8, amended: whenever the fetch fails (transport or timeout error, status other than 200,
unreadable body, body that is not a JSON object), `getMetrics` returns that error together
with zero metrics, `ErrorRequestFail` for a status such as 503; `CollectMetrics` and
`GetMetricTypes`, called with the URL in their configuration, only log it and return zero
metrics together with a nil error. -/
theorem getMetrics_fetch_failure (lookupAddr : String → Option (List String))
    (httpGet : String → HttpResult) (url : String) (err : GoError)
    (hfetch : fetchError (httpGet url) = some err) :
    (∀ metrics, getMetrics lookupAddr httpGet url metrics = some ([], some err)) ∧
    (∀ StatusCode body, httpGet url = .response StatusCode body → StatusCode ≠ 200 →
      err = .ErrorRequestFail) ∧
    (∀ (mt0 : String × List (String × ConfigValue)) (rest : List _),
      mt0.2.lookup "nginx_server_url" = some (.ConfigValueStr url) →
      CollectMetrics lookupAddr httpGet (mt0 :: rest) = some ([], none)) ∧
    (∀ cfg : List (String × ConfigValue),
      cfg.lookup "nginx_server_url" = some (.ConfigValueStr url) →
      GetMetricTypes lookupAddr httpGet cfg = some ([], none)) := by
  refine ⟨getMetrics_of_fetchError hfetch, ?_, ?_, ?_⟩
  · intro sc body hg hsc
    rw [hg] at hfetch
    simp only [fetchError, if_pos hsc, Option.some.injEq] at hfetch
    exact hfetch.symm
  · intro mt0 rest hcfg
    simp only [CollectMetrics, hcfg, getMetrics_of_fetchError hfetch]
  · intro cfg hcfg
    simp only [GetMetricTypes, hcfg, getMetrics_of_fetchError hfetch]

/-- C8, instance: the status 503. -/
theorem getMetrics_fetch_failure_witness :
    getMetrics lookupNone http503 "http://localhost/status" [] =
      some ([], some .ErrorRequestFail) ∧
    GetMetricTypes lookupNone http503 cfgUrl = some ([], none) :=
  ⟨(getMetrics_fetch_failure lookupNone http503 "http://localhost/status" .ErrorRequestFail
      (by decide)).1 [],
   (getMetrics_fetch_failure lookupNone http503 "http://localhost/status" .ErrorRequestFail
      (by decide)).2.2.2 cfgUrl (by decide)⟩

/-! ## Independence of the order in which mappings are visited -/

theorem PermResult.rfl_of (r : Option (List MetricType)) : PermResult r r := by
  cases r with
  | none => trivial
  | some a => exact List.Perm.refl a

theorem PermResult.trans_of {r1 r2 r3 : Option (List MetricType)} (h12 : PermResult r1 r2)
    (h23 : PermResult r2 r3) : PermResult r1 r3 := by
  cases r1 <;> cases r2 <;> cases r3 <;> simp only [PermResult] at h12 h23 ⊢
  exact h12.trans h23

theorem PermResult.map_append {r1 r2 : Option (List MetricType)} (h : PermResult r1 r2)
    {out out1 : List MetricType} (ho : out.Perm out1) :
    PermResult (r1.map (out ++ ·)) (r2.map (out1 ++ ·)) := by
  cases r1 <;> cases r2 <;> simp only [PermResult, Option.map_some', Option.map_none'] at h ⊢
  exact ho.append h

theorem PermResult.bind_congr {r1 r2 : Option (List MetricType)} (h : PermResult r1 r2)
    {f g : List MetricType → Option (List MetricType)}
    (hfg : ∀ a b, a.Perm b → PermResult (f a) (g b)) :
    PermResult (r1.bind f) (r2.bind g) := by
  cases r1 <;> cases r2 <;> simp only [PermResult, Option.some_bind, Option.none_bind] at h ⊢
  exact hfg _ _ h

theorem switchType_permAcc (lk : String → Option (List String)) (v : Value) (ak : String)
    {out out1 : List MetricType} (ho : out.Perm out1) :
    PermResult (switchType lk out v ak) (switchType lk out1 v ak) := by
  rw [switchType_acc lk v out, switchType_acc lk v out1]
  exact (PermResult.rfl_of _).map_append ho

theorem parseMetrics_permAcc (lk : String → Option (List String)) (m : List (String × Value))
    (parent : String) {out out1 : List MetricType} (ho : out.Perm out1) :
    PermResult (parseMetrics lk out m parent) (parseMetrics lk out1 m parent) := by
  rw [parseMetrics_acc lk m out, parseMetrics_acc lk m out1]
  exact (PermResult.rfl_of _).map_append ho

theorem parseArrMetrics_permAcc (lk : String → Option (List String)) (xs : List Value)
    (i : Nat) (parent : String) {out out1 : List MetricType} (ho : out.Perm out1) :
    PermResult (parseArrMetrics lk out xs i parent) (parseArrMetrics lk out1 xs i parent) := by
  rw [parseArrMetrics_acc lk xs out, parseArrMetrics_acc lk xs out1]
  exact (PermResult.rfl_of _).map_append ho

theorem parseMetrics_append (lk : String → Option (List String)) (a b : List (String × Value))
    (parent : String) : ∀ out : List MetricType,
    parseMetrics lk out (a ++ b) parent =
      (parseMetrics lk out a parent).bind fun o => parseMetrics lk o b parent := by
  induction a with
  | nil => intro out; simp [parseMetrics]
  | cons kv rest ih =>
    intro out
    obtain ⟨k, x⟩ := kv
    rw [List.cons_append, parseMetrics_cons, parseMetrics_cons]
    cases switchType lk out x (parent ++ "/" ++ k) with
    | none => rfl
    | some o => exact ih o

theorem parseArrMetrics_append (lk : String → Option (List String)) (a b : List Value)
    (parent : String) : ∀ (out : List MetricType) (i : Nat),
    parseArrMetrics lk out (a ++ b) i parent =
      (parseArrMetrics lk out a i parent).bind fun o =>
        parseArrMetrics lk o b (i + a.length) parent := by
  induction a with
  | nil => intro out i; simp [parseArrMetrics]
  | cons x rest ih =>
    intro out i
    rw [List.cons_append, parseArrMetrics_cons, parseArrMetrics_cons]
    cases flattenElement lk out parent i x with
    | none => rfl
    | some o =>
      simp only [Option.some_bind, ih o (i + 1), List.length_cons]
      have : i + 1 + rest.length = i + (rest.length + 1) := by omega
      rw [this]

/-- Visiting the entries of a mapping in another order permutes the tuples. -/
theorem parseMetrics_perm (lk : String → Option (List String)) (parent : String)
    {m m1 : List (String × Value)} (h : m.Perm m1) :
    ∀ out out1 : List MetricType, out.Perm out1 →
      PermResult (parseMetrics lk out m parent) (parseMetrics lk out1 m1 parent) := by
  induction h with
  | nil => intro out out1 ho; simpa [parseMetrics, PermResult] using ho
  | cons kv _ ih =>
    intro out out1 ho
    obtain ⟨k, x⟩ := kv
    rw [parseMetrics_cons, parseMetrics_cons]
    exact (switchType_permAcc lk x _ ho).bind_congr ih
  | swap kv kv1 l =>
    intro out out1 ho
    obtain ⟨k, x⟩ := kv
    obtain ⟨k1, x1⟩ := kv1
    simp only [parseMetrics_cons]
    rw [switchType_acc lk x1 out, switchType_acc lk x out1]
    cases hx : switchType lk [] x (parent ++ "/" ++ k) with
    | none =>
      cases hx1 : switchType lk [] x1 (parent ++ "/" ++ k1) with
      | none => simp [PermResult]
      | some d1 =>
        simp only [Option.map_some', Option.some_bind, Option.map_none', Option.none_bind]
        rw [switchType_acc lk x, hx]
        simp [PermResult]
    | some d =>
      cases hx1 : switchType lk [] x1 (parent ++ "/" ++ k1) with
      | none =>
        simp only [Option.map_some', Option.some_bind, Option.map_none', Option.none_bind]
        rw [switchType_acc lk x1, hx1]
        simp [PermResult]
      | some d1 =>
        simp only [Option.map_some', Option.some_bind]
        rw [switchType_acc lk x, hx, switchType_acc lk x1, hx1]
        simp only [Option.map_some', Option.some_bind]
        apply parseMetrics_permAcc
        rw [List.append_assoc, List.append_assoc]
        exact ho.append List.perm_append_comm
  | trans _ _ ih1 ih2 =>
    intro out out1 ho
    exact (ih1 out out1 ho).trans_of (ih2 out1 out1 (List.Perm.refl _))

theorem lookup_eq_of_perm {m m1 : List (String × Value)} (h : m.Perm m1)
    (hnd : (m.map Prod.fst).Nodup) (key : String) : m.lookup key = m1.lookup key := by
  induction h with
  | nil => rfl
  | cons kv _ ih =>
    obtain ⟨k, x⟩ := kv
    simp only [List.map_cons, List.nodup_cons] at hnd
    simp only [List.lookup]
    split
    · rfl
    · exact ih hnd.2
  | swap kv kv1 l =>
    obtain ⟨k, x⟩ := kv
    obtain ⟨k1, x1⟩ := kv1
    simp only [List.map_cons, List.nodup_cons, List.mem_cons, not_or] at hnd
    simp only [List.lookup]
    by_cases h1 : key = k1
    · by_cases h2 : key = k
      · exact absurd (h1.symm.trans h2) hnd.1.1
      · have e1 : (key == k1) = true := by simpa using h1
        have e2 : (key == k) = false := by simpa using h2
        simp [e1, e2]
    · have e1 : (key == k1) = false := by simpa using h1
      simp [e1]
  | trans h1 _ ih1 ih2 =>
    exact (ih1 hnd).trans (ih2 ((h1.map Prod.fst).nodup_iff.1 hnd))

theorem wfMap_iff (m : List (String × Value)) :
    wfMap m = true ↔ ∀ kv ∈ m, kv.2.wf = true := by
  induction m with
  | nil => simp [wfMap]
  | cons kv rest ih =>
    obtain ⟨k, x⟩ := kv
    simp [wfMap, ih]

theorem wfArr_iff (xs : List Value) : wfArr xs = true ↔ ∀ x ∈ xs, x.wf = true := by
  induction xs with
  | nil => simp [wfArr]
  | cons x rest ih => simp [wfArr, ih]

theorem wf_obj_iff (m : List (String × Value)) :
    (Value.obj m).wf = true ↔ (m.map Prod.fst).Nodup ∧ ∀ kv ∈ m, kv.2.wf = true := by
  simp [Value.wf, wfMap_iff]

theorem wf_arr_iff (xs : List Value) : (Value.arr xs).wf = true ↔ ∀ x ∈ xs, x.wf = true := by
  simp [Value.wf, wfArr_iff]

theorem shuffle_wf {a b : Value} (h : Shuffle a b) : a.wf = true → b.wf = true := by
  induction h with
  | refl v => exact id
  | trans _ _ ih1 ih2 => exact fun hw => ih2 (ih1 hw)
  | objPerm hp =>
    intro hw
    rw [wf_obj_iff] at hw ⊢
    exact ⟨(hp.map Prod.fst).nodup_iff.1 hw.1, fun kv hkv => hw.2 kv (hp.mem_iff.2 hkv)⟩
  | objCongr pre post k _ ih =>
    intro hw
    rw [wf_obj_iff] at hw ⊢
    refine ⟨by simpa using hw.1, fun kv hkv => ?_⟩
    rcases List.mem_append.1 hkv with hkv | hkv
    · exact hw.2 kv (List.mem_append_left _ hkv)
    · rcases List.mem_cons.1 hkv with rfl | hkv
      · exact ih (hw.2 _ (List.mem_append_right _ (List.mem_cons_self _ _)))
      · exact hw.2 kv (List.mem_append_right _ (List.mem_cons_of_mem _ hkv))
  | arrCongr pre post _ ih =>
    intro hw
    rw [wf_arr_iff] at hw ⊢
    intro x hx
    rcases List.mem_append.1 hx with hx | hx
    · exact hw x (List.mem_append_left _ hx)
    · rcases List.mem_cons.1 hx with rfl | hx
      · exact ih (hw _ (List.mem_append_right _ (List.mem_cons_self _ _)))
      · exact hw x (List.mem_append_right _ (List.mem_cons_of_mem _ hx))

/-- A scalar or null is reordered to itself only. -/
theorem shuffle_leaf {a b : Value} (h : Shuffle a b) :
    ((∀ m, a ≠ .obj m) ∧ (∀ xs, a ≠ .arr xs)) ∨ ((∀ m, b ≠ .obj m) ∧ (∀ xs, b ≠ .arr xs)) →
      a = b := by
  induction h with
  | refl v => exact fun _ => rfl
  | trans _ _ ih1 ih2 =>
    intro hl
    rcases hl with hl | hl
    · have e := ih1 (Or.inl hl)
      subst e
      exact ih2 (Or.inl hl)
    · have e := ih2 (Or.inr hl)
      subst e
      exact ih1 (Or.inr hl)
  | objPerm hp =>
    intro hl
    rcases hl with hl | hl <;> exact absurd rfl (hl.1 _)
  | objCongr pre post k _ _ =>
    intro hl
    rcases hl with hl | hl <;> exact absurd rfl (hl.1 _)
  | arrCongr pre post _ _ =>
    intro hl
    rcases hl with hl | hl <;> exact absurd rfl (hl.2 _)

theorem shuffle_string {v v1 : Value} (h : Shuffle v v1) (s : String) :
    v = .data (.string s) ↔ v1 = .data (.string s) := by
  constructor
  · intro e
    subst e
    exact (shuffle_leaf h (Or.inl ⟨fun m => Value.noConfusion, fun xs => Value.noConfusion⟩)).symm
  · intro e
    subst e
    exact shuffle_leaf h (Or.inr ⟨fun m => Value.noConfusion, fun xs => Value.noConfusion⟩)

theorem getHostName_obj_none {lk : String → Option (List String)} {m : List (String × Value)}
    (h : ∀ s, m.lookup "server" ≠ some (.data (.string s))) (fb : String) :
    getHostName lk (.obj m) fb = none := by
  simp only [getHostName]
  rfl

theorem getHostName_obj_congr {lk : String → Option (List String)}
    {m m1 : List (String × Value)}
    (h : ∀ s, m.lookup "server" = some (.data (.string s)) ↔
      m1.lookup "server" = some (.data (.string s))) (fb : String) :
    getHostName lk (.obj m) fb = getHostName lk (.obj m1) fb := by
  by_cases hs : ∃ s, m.lookup "server" = some (.data (.string s))
  · obtain ⟨s, hl⟩ := hs
    have hl1 := (h s).1 hl
    simp only [getHostName, hl, hl1]
  · have hn : ∀ s, m.lookup "server" ≠ some (.data (.string s)) := fun s e => hs ⟨s, e⟩
    have hn1 : ∀ s, m1.lookup "server" ≠ some (.data (.string s)) :=
      fun s e => hs ⟨s, (h s).2 e⟩
    rw [getHostName_obj_none hn, getHostName_obj_none hn1]

theorem lookup_congr {v v1 : Value} {s : String}
    (h : v = .data (.string s) ↔ v1 = .data (.string s)) (k key : String)
    (post : List (String × Value)) : ∀ pre : List (String × Value),
    (pre ++ (k, v) :: post).lookup key = some (.data (.string s)) ↔
      (pre ++ (k, v1) :: post).lookup key = some (.data (.string s)) := by
  intro pre
  induction pre with
  | nil =>
    simp only [List.nil_append, List.lookup]
    split
    · simpa using h
    · exact Iff.rfl
  | cons kv rest ih =>
    obtain ⟨k0, x0⟩ := kv
    simp only [List.cons_append, List.lookup]
    split
    · exact Iff.rfl
    · exact ih

theorem shuffle_getHostName (lk : String → Option (List String)) {a b : Value}
    (h : Shuffle a b) : a.wf = true → ∀ fb, getHostName lk a fb = getHostName lk b fb := by
  induction h with
  | refl v => exact fun _ _ => rfl
  | trans h1 _ ih1 ih2 => exact fun hw fb => (ih1 hw fb).trans (ih2 (shuffle_wf h1 hw) fb)
  | objPerm hp =>
    intro hw fb
    rw [wf_obj_iff] at hw
    apply getHostName_obj_congr
    intro s
    rw [lookup_eq_of_perm hp hw.1]
  | objCongr pre post k hs _ =>
    intro _ fb
    apply getHostName_obj_congr
    intro s
    exact lookup_congr (shuffle_string hs s) k "server" post pre
  | arrCongr pre post _ _ => exact fun _ _ => rfl

theorem flattenElement_shuffle {lk : String → Option (List String)} {v v1 : Value}
    (hs : Shuffle v v1) (hw : v.wf = true)
    (ih : ∀ ak, PermResult (switchType lk [] v ak) (switchType lk [] v1 ak))
    (parent : String) (i : Nat) {out out1 : List MetricType} (ho : out.Perm out1) :
    PermResult (flattenElement lk out parent i v) (flattenElement lk out1 parent i v1) := by
  simp only [flattenElement]
  split
  · rw [← shuffle_getHostName lk hs hw]
    cases getHostName lk v (strconvItoa i) with
    | none => trivial
    | some hn =>
      simp only []
      rw [switchType_acc lk v out, switchType_acc lk v1 out1]
      exact (ih _).map_append ho
  · rw [switchType_acc lk v out, switchType_acc lk v1 out1]
    exact (ih _).map_append ho

/-- Flattening a reordered document gives the same tuples up to order. -/
theorem switchType_shuffle (lk : String → Option (List String)) {a b : Value}
    (h : Shuffle a b) : a.wf = true →
      ∀ ak, PermResult (switchType lk [] a ak) (switchType lk [] b ak) := by
  induction h with
  | refl v => exact fun _ _ => PermResult.rfl_of _
  | trans h1 _ ih1 ih2 =>
    exact fun hw ak => (ih1 hw ak).trans_of (ih2 (shuffle_wf h1 hw) ak)
  | objPerm hp =>
    intro _ ak
    simp only [switchType]
    exact parseMetrics_perm lk ak hp [] [] (List.Perm.refl _)
  | objCongr pre post k hs ih =>
    intro hw ak
    rw [wf_obj_iff] at hw
    have hwv := hw.2 _ (List.mem_append_right _ (List.mem_cons_self _ _))
    simp only [switchType]
    rw [parseMetrics_append, parseMetrics_append]
    refine (PermResult.rfl_of _).bind_congr fun o o1 ho => ?_
    rw [parseMetrics_cons, parseMetrics_cons]
    refine PermResult.bind_congr ?_ fun p p1 hp => parseMetrics_permAcc lk post ak hp
    rw [switchType_acc lk _ o, switchType_acc lk _ o1]
    exact (ih hwv _).map_append ho
  | arrCongr pre post hs ih =>
    intro hw ak
    rw [wf_arr_iff] at hw
    have hwv := hw _ (List.mem_append_right _ (List.mem_cons_self _ _))
    simp only [switchType]
    rw [parseArrMetrics_append, parseArrMetrics_append]
    refine (PermResult.rfl_of _).bind_congr fun o o1 ho => ?_
    rw [parseArrMetrics_cons, parseArrMetrics_cons]
    exact (flattenElement_shuffle hs hwv (ih hwv) ak _ ho).bind_congr
      fun p p1 hp => parseArrMetrics_permAcc lk post _ ak hp

/-- C9: for a fixed reverse-DNS answer function, flattening a document whose maps have
pairwise distinct keys, and flattening it with the entries of any of its mappings visited in
another order, give lists of (namespace, value) tuples that are permutations of each other
(or panic both), so the same tuples occur in both; flattening the same document twice gives
the same result. -/
theorem parseMetrics_shuffle (lookupAddr : String → Option (List String))
    (inData inData1 : List (String × Value)) (parentKey : String)
    (hwf : (Value.obj inData).wf = true) (hsh : Shuffle (.obj inData) (.obj inData1)) :
    PermResult (parseMetrics lookupAddr [] inData parentKey)
      (parseMetrics lookupAddr [] inData1 parentKey) ∧
    PermResult (parseMetrics lookupAddr [] inData parentKey)
      (parseMetrics lookupAddr [] inData parentKey) ∧
    ∀ out out1 : List MetricType,
      parseMetrics lookupAddr [] inData parentKey = some out →
      parseMetrics lookupAddr [] inData1 parentKey = some out1 →
      out.Perm out1 ∧ ∀ t, t ∈ out ↔ t ∈ out1 := by
  have h := switchType_shuffle lookupAddr hsh hwf parentKey
  simp only [switchType] at h
  refine ⟨h, PermResult.rfl_of _, fun out out1 h1 h2 => ?_⟩
  rw [h1, h2] at h
  exact ⟨h, fun t => List.Perm.mem_iff h⟩

set_option maxRecDepth 100000 in
/-- C9, instance: `statusDoc` and `statusDocShuffled`. -/
theorem parseMetrics_shuffle_witness :
    (Value.obj statusDoc).wf = true ∧
    PermResult (parseMetrics lookupWeb1 [] statusDoc "staples/nginx")
      (parseMetrics lookupWeb1 [] statusDocShuffled "staples/nginx") ∧
    parseMetrics lookupWeb1 [] statusDocShuffled "staples/nginx" =
      some [⟨["staples", "nginx", "peers", "host_id_web1_example_com", "backup"], .int 0⟩,
        ⟨["staples", "nginx", "peers", "host_id_web1_example_com", "id"], .float64 5⟩,
        ⟨["staples", "nginx", "peers", "host_id_222f737ee64382b5dde20a919ab4a34b", "name"],
          .string "b"⟩,
        ⟨["staples", "nginx", "active"], .int 1⟩] :=
  ⟨by decide,
   (parseMetrics_shuffle lookupWeb1 statusDoc statusDocShuffled "staples/nginx" (by decide)
      (Shuffle.trans
        (Shuffle.objCongr [("active", .bool true), ("server", .data (.string "1.2.3.4:80"))] []
          "peers"
          (Shuffle.arrCongr []
            [.obj [("server", .data (.string "badhost")), ("name", .data (.string "b"))]]
            (Shuffle.objPerm
              ((List.Perm.swap _ _ _).trans
                ((List.Perm.cons _ (List.Perm.swap _ _ _)).trans (List.Perm.swap _ _ _))))))
        (Shuffle.objPerm
          ((List.Perm.swap _ _ _).trans
            ((List.Perm.cons _ (List.Perm.swap _ _ _)).trans (List.Perm.swap _ _ _)))))).1,
   by decide⟩


end Nginx
